import Mathlib

/-!
The u-root `pxeboot` command: kernel command-line filter and netboot orchestration.

A shallow embedding of `pkg/cmdlinefilter/cmdlinefilter.go` and
`cmds/pxeboot/pxeboot.go`.

Modelling conventions.

* A Go `string` is a `List Char`: the sequence of code points that
  `for _, c := range s` yields.  Offsets are therefore counted in code points.
  All bytes the program inspects (`=`, `-`, white space, quotation marks) are
  recognised per code point, so nothing the program does depends on the
  difference.
* The closure `quotedFieldsCheck` captures and assigns the variable
  `lastQuote`; here the variable is passed in and returned explicitly.
* Library functions of the Go standard library (`strings`, `unicode`) are
  embedded from their documented behaviour, for the arguments the program
  passes (one-character separators, replace-all).  `strings.FieldsFunc` is the
  one-pass scan of Go 1.10 and later, which calls its predicate once per rune,
  in order; the stateful predicate of `Remove` relies on that.
* Calls that leave the process (`netlink`, `dhclient`, `dhcp4client`, `ipxe`,
  `pxe`, `boot`) are fields of a record of collaborators; each takes and
  returns the state of the outside world, and every call is recorded in a
  trace.  Log output is not modelled.
-/

namespace unicode

/-- A Go `unicode.RangeTable`, as the list of its inclusive ranges
(the code points of the table, listed range by range). -/
abbrev RangeTable := List (Nat × Nat)

/-- The table `unicode.Quotation_Mark` (Unicode property `Quotation_Mark`). -/
def Quotation_Mark : RangeTable :=
  [(0x0022, 0x0022), (0x0027, 0x0027), (0x00ab, 0x00ab), (0x00bb, 0x00bb),
   (0x2018, 0x201f), (0x2039, 0x203a), (0x2e42, 0x2e42), (0x300c, 0x300f),
   (0x301d, 0x301f), (0xfe41, 0xfe44), (0xff02, 0xff02), (0xff07, 0xff07),
   (0xff62, 0xff63)]

/-- The table `unicode.White_Space` (Unicode property `White_Space`). -/
def White_Space : RangeTable :=
  [(0x0009, 0x000d), (0x0020, 0x0020), (0x0085, 0x0085), (0x00a0, 0x00a0),
   (0x1680, 0x1680), (0x2000, 0x200a), (0x2028, 0x2029), (0x202f, 0x202f),
   (0x205f, 0x205f), (0x3000, 0x3000)]

/-- Go `unicode.In(r, table)`: whether the rune lies in one of the ranges. -/
def In (c : Char) (table : RangeTable) : Bool :=
  table.any (fun r => decide (r.1 ≤ c.toNat) && decide (c.toNat ≤ r.2))

/-- Go `unicode.IsSpace(r)`: the Latin-1 cases `\t \n \v \f \r`, space, U+0085
and U+00A0, and otherwise the property `White_Space`; both are the ranges of
`White_Space`. -/
def IsSpace (c : Char) : Bool :=
  In c White_Space

end unicode

namespace strings

/-- Go `strings.Index(s, sep)` for a one-character `sep`: the offset of the
first occurrence, or `-1` when there is none. -/
def Index : List Char → Char → Int
  | [], _ => -1
  | x :: xs, sep => if x = sep then 0 else
      if Index xs sep = -1 then -1 else Index xs sep + 1

/-- Go `strings.Replace(s, old, new, -1)` for one-character `old` and `new`:
every occurrence is replaced. -/
def Replace (s : List Char) (old new : Char) : List Char :=
  s.map (fun c => if c = old then new else c)

/-- Go `strings.Join(elems, sep)`. -/
def Join : List (List Char) → List Char → List Char
  | [], _ => []
  | [a], _ => a
  | a :: b :: rest, sep => a ++ sep ++ Join (b :: rest) sep

/-- Go `strings.Split(s, sep)` for a one-character `sep`: the pieces between
the separators; the empty string gives one empty piece. -/
def Split : List Char → Char → List (List Char)
  | [], _ => [[]]
  | c :: cs, sep =>
    if c = sep then [] :: Split cs sep
    else match Split cs sep with
      | [] => [[c]]
      | piece :: pieces => (c :: piece) :: pieces

/-- A half-open range of offsets `[start, stop)` of a string: the `span`
record of `strings.FieldsFunc` (whose second field is named `end`). -/
structure Span where
  start : Nat
  stop : Nat
  deriving DecidableEq, Repr

/-- Go slice expression `s[a:b]`. -/
def slice (s : List Char) (a b : Nat) : List Char :=
  (s.take b).drop a

/-- The scanning loop of `strings.FieldsFunc`:
`for end, rune := range s` with the loop variable `start` (`none` stands for a
negative value) and the growing slice `spans`; after the last rune the open
field, if any, is closed at `len(s)`.  The predicate `f` may keep state `σ`,
threaded in call order. -/
def FieldsFunc.loop {σ : Type} (f : σ → Char → Bool × σ) :
    σ → Option Nat → Nat → List Char → List Span → List Span
  | _, none, _, [], spans => spans
  | _, some s, i, [], spans => spans ++ [⟨s, i⟩]
  | st, start, i, c :: cs, spans =>
    if (f st c).1 then
      match start with
      | some s => FieldsFunc.loop f (f st c).2 none (i + 1) cs (spans ++ [⟨s, i⟩])
      | none => FieldsFunc.loop f (f st c).2 none (i + 1) cs spans
    else
      match start with
      | some s => FieldsFunc.loop f (f st c).2 (some s) (i + 1) cs spans
      | none => FieldsFunc.loop f (f st c).2 (some i) (i + 1) cs spans

/-- The spans that `strings.FieldsFunc(s, f)` records, `f` starting in state
`init`. -/
def FieldsFunc.spans {σ : Type} (s : List Char) (f : σ → Char → Bool × σ) (init : σ) :
    List Span :=
  FieldsFunc.loop f init none 0 s []

/-- Go `strings.FieldsFunc(s, f)`: the substrings `s[span.start:span.end]`. -/
def FieldsFunc {σ : Type} (s : List Char) (f : σ → Char → Bool × σ) (init : σ) :
    List (List Char) :=
  (FieldsFunc.spans s f init).map (fun sp => slice s sp.start sp.stop)

end strings

namespace cmdlinefilter

/-- The loop `for _, f := range fields \x7b f = strings.Replace(f, "-", "_", -1) \x7d`
of `Remove`: each iteration assigns to the loop variable `f`, which holds a
copy of the element; the slice `fields` is never written.  The result is the
slice as it stands after the loop. -/
def canonicalizeLoop (fields : List (List Char)) : List (List Char) :=
  fields.foldl (fun fields f =>
    let _f := strings.Replace f '-' '_'
    fields) fields

/-- The closure `quotedFieldsCheck` of `Remove`: takes the captured
`lastQuote` and the rune, returns the verdict and the new `lastQuote`;
`rune(0)` is `Char.ofNat 0`. -/
def quotedFieldsCheck (lastQuote : Char) (c : Char) : Bool × Char :=
  if c = lastQuote then (false, Char.ofNat 0)
  else if lastQuote ≠ Char.ofNat 0 then (false, lastQuote)
  else if unicode.In c unicode.Quotation_Mark then (false, c)
  else (unicode.IsSpace c, lastQuote)

/-- The inner loop of `Remove` that sets `skip`: true as soon as an entry of
`fields` equals `canonicalKey`. -/
def skipLoop (canonicalKey : List Char) : List (List Char) → Bool
  | [] => false
  | f :: fields => if canonicalKey = f then true else skipLoop canonicalKey fields

/-- The key of a flag in `Remove`: `flag` when `strings.Index(flag, "=")` is
`-1`, else `flag[:split]`. -/
def keyOf (flag : List Char) : List Char :=
  let split := strings.Index flag '='
  if split = -1 then flag else strings.slice flag 0 split.toNat

/-- One iteration of the main loop of `Remove` over the flags, `newCl` being
the slice built so far. -/
def removeStep (fields : List (List Char)) (newCl : List (List Char)) (flag : List Char) :
    List (List Char) :=
  if flag.length = 0 then newCl
  else
    let key := keyOf flag
    let canonicalKey := strings.Replace key '-' '_'
    let skip := skipLoop canonicalKey fields
    if skip then newCl else newCl ++ [flag]

/-- The function `cmdlinefilter.Remove(cl, fields)`. -/
def Remove (cl : List Char) (fields : List (List Char)) : List Char :=
  let fields := canonicalizeLoop fields
  let flags := strings.FieldsFunc cl quotedFieldsCheck (Char.ofNat 0)
  let newCl := flags.foldl (removeStep fields) []
  strings.Join newCl [' ']

/-- The function `cmdlinefilter.Update(cl, append, remove, reuse)`; `Flag` is
the lookup `cmdline.Flag` of the running kernel's command line. -/
def Update (Flag : List Char → List Char × Bool) (cl append : List Char)
    (remove reuse : List (List Char)) : List Char :=
  let acl := if append.length > 0 then [' '] ++ append else []
  let acl := reuse.foldl (fun acl f =>
    if (Flag f).2 then acl ++ [' '] ++ f ++ ['='] ++ (Flag f).1 else acl) acl
  Remove cl remove ++ acl

/-- The reuse tokens as the specification describes them: for each reuse key
in order, the text ` key=value` when the lookup has the key, nothing
otherwise. -/
def reuseTokens (Flag : List Char → List Char × Bool) : List (List Char) → List Char
  | [] => []
  | k :: ks =>
    (if (Flag k).2 then [' '] ++ k ++ ['='] ++ (Flag k).1 else []) ++ reuseTokens Flag ks

/-- The key of a token as the specification describes it: the text before its
first `=`, or the whole token when it has none. -/
def specKey (t : List Char) : List Char :=
  t.takeWhile (fun c => c != '=')

/-- The canonical form of a key: every `-` replaced by `_`. -/
def canonical (k : List Char) : List Char :=
  k.map (fun c => if c = '-' then '_' else c)

/-- The tokens of a command line: the fields `Remove` iterates over. -/
def tokens (cl : List Char) : List (List Char) :=
  strings.FieldsFunc cl quotedFieldsCheck (Char.ofNat 0)

end cmdlinefilter

/-! ## Package `path` of the Go standard library -/

namespace path

/-- Go `strings.LastIndex(s, "/")` for a one-character separator, as
`path.Split` uses it: the offset of the last occurrence, or `-1`. -/
def lastIndex : List Char → Char → Int
  | [], _ => -1
  | x :: xs, sep =>
    if lastIndex xs sep = -1 then (if x = sep then 0 else -1) else lastIndex xs sep + 1

/-- The backtracking of `path.Clean` at a `..` element, on the buffer written
so far, last byte first: `out.w--`, then
`for out.w > dotdot && out.index(out.w) != '/'` again `out.w--`.  The head of
the list is the byte at offset `out.w` after the decrement. -/
def backtrack (dotdot : Nat) : List Char → List Char
  | [] => []
  | c :: out => if out.length > dotdot ∧ c ≠ '/' then backtrack dotdot out else out

/-- The effect of a `..` element in `path.Clean` on the buffer (last byte
first) and on `dotdot`. -/
def dotdotElem (rooted : Bool) (out : List Char) (dotdot : Nat) : List Char × Nat :=
  if out.length > dotdot then (backtrack dotdot out, dotdot)
  else if !rooted then
    let out := if out.length > 0 then '/' :: out else out
    let out := '.' :: '.' :: out
    (out, out.length)
  else (out, dotdot)

/-- The slash that `path.Clean` writes before a real path element:
`if rooted && out.w != 1 || !rooted && out.w != 0`. -/
def addSlash (rooted : Bool) (out : List Char) : List Char :=
  if (rooted && out.length != 1) || (!rooted && out.length != 0) then '/' :: out else out

/-- The loop `for r < n` of `path.Clean` over the bytes not yet read.  The
buffer `out` is kept last byte first.  The inner loop that copies a path
element is run by the same scan: `copying` holds while the bytes of an
element are being copied, up to the next slash. -/
def Clean.loop (rooted : Bool) : Bool → List Char → Nat → List Char → List Char
  | _, out, _, [] => out
  | true, out, dotdot, c :: rest =>
    if c = '/' then Clean.loop rooted false out dotdot rest
    else Clean.loop rooted true (c :: out) dotdot rest
  | false, out, dotdot, [c] =>
    if c = '/' then Clean.loop rooted false out dotdot []
    else if c = '.' then Clean.loop rooted false out dotdot []
    else Clean.loop rooted true (c :: addSlash rooted out) dotdot []
  | false, out, dotdot, c :: c2 :: rest =>
    if c = '/' then Clean.loop rooted false out dotdot (c2 :: rest)
    else if c = '.' ∧ c2 = '/' then Clean.loop rooted false out dotdot (c2 :: rest)
    else if c = '.' ∧ c2 = '.' ∧ (rest = [] ∨ rest.head? = some '/') then
      Clean.loop rooted false (dotdotElem rooted out dotdot).1 (dotdotElem rooted out dotdot).2
        rest
    else Clean.loop rooted true (c :: addSlash rooted out) dotdot (c2 :: rest)

/-- Go `path.Clean(path)`. -/
def Clean (path : List Char) : List Char :=
  match path with
  | [] => ['.']
  | c :: rest =>
    let out :=
      if c = '/' then Clean.loop true false ['/'] 1 rest
      else Clean.loop false false [] 0 (c :: rest)
    if out.length = 0 then ['.'] else out.reverse

/-- Go `path.Split(path)`, first component: `path[:i+1]` for the last slash
`i`. -/
def splitDir (path : List Char) : List Char :=
  path.take (lastIndex path '/' + 1).toNat

/-- Go `path.Dir(path)`: `Clean` of the directory part. -/
def Dir (path : List Char) : List Char :=
  Clean (splitDir path)

end path
/-! ## `cmds/pxeboot/pxeboot.go` -/

namespace pxeboot

/-- A Go `error` value, by its message. -/
abbrev Error := List Char

/-- The attributes of a `netlink.Link` that `Netboot` reads through
`iface.Attrs()`. -/
structure Link where
  Name : List Char
  HardwareAddr : List Nat
  deriving DecidableEq, Repr

/-- A `url.URL`: the three components `getBootImage` copies, and the query and
fragment, which it does not. -/
structure URL where
  Scheme : List Char
  Host : List Char
  Path : List Char
  RawQuery : List Char := []
  Fragment : List Char := []
  deriving DecidableEq, Repr

/-- A `boot.LinuxImage`; the kernel and the initrd are readers, named here by a
number. -/
structure LinuxImage where
  Kernel : Nat
  Initrd : Nat
  Cmdline : List Char
  deriving DecidableEq, Repr

/-- An `ipxe.Config`, of which only the pointer `BootImage` is read; `none` is
the nil pointer. -/
structure IpxeConfig where
  BootImage : Option LinuxImage

/-- A `pxe.Config` after `FindConfigFile`: the map `Entries` from label to
image pointer (a missing key reads as nil, `none`) and `DefaultEntry`. -/
structure PxeConfig where
  Entries : List Char → Option LinuxImage
  DefaultEntry : List Char

/-- A `dhclient.Packet4`, the wrapper `dhclient.NewPacket4(p)` of the reply
`p`. -/
structure Packet4 (Pkt : Type) where
  P : Pkt

/-- The command-line flags of the program (`verbose` only selects logging). -/
structure Flags where
  dryRun : Bool
  removeCmdlineItem : List Char
  reuseCmdlineItem : List Char
  appendCmdline : List Char

/-- A call the program makes, in the order made.  `getBootImage` marks the
entry into the function of that name; the others are calls into the
collaborating packages. -/
inductive Event where
  | LinkList
  | IfUp (name : List Char)
  | New (iface : Link)
  | Request
  | Configure4 (iface : Link)
  | getBootImage (uri : URL) (mac ip : List Nat)
  | ipxeNewConfig (uri : URL)
  | pxeNewConfig (wd : URL)
  | FindConfigFile (wd : URL) (mac ip : List Nat)
  | ExecutionInfo (img : LinuxImage)
  | Execute (img : LinuxImage)
  deriving DecidableEq, Repr

/-- The collaborators of `pxeboot`.  Every call that reaches outside the
process takes the state `W` of the outside world and returns the next one, so
that a collaborator may answer differently each time it is called. -/
structure Collaborators (W Client Pkt : Type) where
  /-- The function `netlink.LinkList()`. -/
  LinkList : W → Except Error (List Link) × W
  /-- The function `dhclient.IfUp(name)`; only its error is used. -/
  IfUp : List Char → W → Option Error × W
  /-- The function `dhcp4client.New(iface, WithTimeout(timeout), WithRetry(retry))`. -/
  New : Link → Nat → Nat → W → Except Error Client × W
  /-- The method `client.Request()`. -/
  Request : Client → W → Except Error Pkt × W
  /-- The function `dhclient.Configure4(iface, packet.P)`. -/
  Configure4 : Link → Pkt → W → Option Error × W
  /-- The method `packet.Boot()`. -/
  Boot : Pkt → Except Error URL
  /-- The address `packet.Lease().IP`. -/
  LeaseIP : Pkt → List Nat
  /-- The function `ipxe.NewConfig(uri)`. -/
  ipxeNewConfig : URL → W → Except Error IpxeConfig × W
  /-- The config built by `pxe.NewConfig(wd)` after `pc.FindConfigFile(mac, ip)`,
  or the error of the search. -/
  FindConfigFile : URL → List Nat → List Nat → W → Except Error PxeConfig × W
  /-- The method `img.ExecutionInfo(logger)`. -/
  ExecutionInfo : LinuxImage → W → W
  /-- The method `img.Execute()`. -/
  Execute : LinuxImage → W → Option Error × W
  /-- The lookup `cmdline.Flag(name)`. -/
  Flag : List Char → List Char × Bool
  /-- The function `path.Dir(p)`. -/
  Dir : List Char → List Char

/-- The state of a run: the outside world and the calls made so far. -/
structure Run (W : Type) where
  world : W
  trace : List Event
  deriving DecidableEq, Repr

/-- Record a call. -/
def mark {W : Type} (ev : Event) (r : Run W) : Run W :=
  ⟨r.world, r.trace ++ [ev]⟩

/-- Make a call into a collaborator and record it. -/
def call {W α : Type} (ev : Event) (f : W → α × W) (r : Run W) : α × Run W :=
  ((f r.world).1, ⟨(f r.world).2, r.trace ++ [ev]⟩)

/-- How a call of `Netboot` ends: it returns its `error` (`none` is nil), or
the goroutine panics on a nil pointer. -/
inductive Outcome where
  | returned (err : Option Error)
  | panicked
  deriving DecidableEq, Repr

/-- The loop `for _, f := range fields \x7b f = strings.Replace(f, "-", "_", -1) \x7d`
of `removeFromCmdline`: the assignment goes to the loop variable, `fields` is
left as it was. -/
def canonicalizeLoop (fields : List (List Char)) : List (List Char) :=
  fields.foldl (fun fields f =>
    let _f := strings.Replace f '-' '_'
    fields) fields

/-- The closure `quotedFieldsCheck` of `removeFromCmdline`, with `lastQuote`
passed in and returned. -/
def quotedFieldsCheck (lastQuote : Char) (c : Char) : Bool × Char :=
  if c = lastQuote then (false, Char.ofNat 0)
  else if lastQuote ≠ Char.ofNat 0 then (false, lastQuote)
  else if unicode.In c unicode.Quotation_Mark then (false, c)
  else (unicode.IsSpace c, lastQuote)

/-- The inner loop of `removeFromCmdline` that sets `skip`. -/
def skipLoop (canonicalKey : List Char) : List (List Char) → Bool
  | [] => false
  | f :: fields => if canonicalKey = f then true else skipLoop canonicalKey fields

/-- The key of a flag in `removeFromCmdline`: `flag` when
`strings.Index(flag, "=")` is `-1`, else `flag[:split]`. -/
def keyOf (flag : List Char) : List Char :=
  let split := strings.Index flag '='
  if split = -1 then flag else strings.slice flag 0 split.toNat

/-- One iteration of the main loop of `removeFromCmdline` over the flags. -/
def removeStep (fields : List (List Char)) (newCl : List (List Char)) (flag : List Char) :
    List (List Char) :=
  if flag.length = 0 then newCl
  else
    let key := keyOf flag
    let canonicalKey := strings.Replace key '-' '_'
    let skip := skipLoop canonicalKey fields
    if skip then newCl else newCl ++ [flag]

/-- The function `removeFromCmdline(cl, fields)`. -/
def removeFromCmdline (cl : List Char) (fields : List (List Char)) : List Char :=
  let fields := canonicalizeLoop fields
  let flags := strings.FieldsFunc cl quotedFieldsCheck (Char.ofNat 0)
  let newCl := flags.foldl (removeStep fields) []
  strings.Join newCl [' ']

/-- The function `updateBootCmdline(cl)`, reading the flags `append`, `reuse`
and `remove`; `Flag` is the lookup `cmdline.Flag`. -/
def updateBootCmdline (Flag : List Char → List Char × Bool) (flags : Flags)
    (cl : List Char) : List Char :=
  let acl := if flags.appendCmdline.length > 0 then [' '] ++ flags.appendCmdline else []
  let acl := (strings.Split flags.reuseCmdlineItem ',').foldl (fun acl f =>
    if (Flag f).2 then acl ++ [' '] ++ f ++ ['='] ++ (Flag f).1 else acl) acl
  removeFromCmdline cl (strings.Split flags.removeCmdlineItem ',') ++ acl

/-- The function `attemptDHCPLease(iface, timeout, retry)`. -/
def attemptDHCPLease {W Client Pkt : Type} (C : Collaborators W Client Pkt)
    (iface : Link) (timeout retry : Nat) (r : Run W) :
    Except Error (Packet4 Pkt) × Run W :=
  match call (Event.IfUp iface.Name) (C.IfUp iface.Name) r with
  | (some err, r) => (Except.error err, r)
  | (none, r) =>
    match call (Event.New iface) (C.New iface timeout retry) r with
    | (Except.error err, r) => (Except.error err, r)
    | (Except.ok client, r) =>
      match call Event.Request (C.Request client) r with
      | (Except.error err, r) => (Except.error err, r)
      | (Except.ok p, r) => (Except.ok ⟨p⟩, r)

/-- The function `getBootImage(uri, mac, ip)`: the image pointer and the
error it returns. -/
def getBootImage {W Client Pkt : Type} (C : Collaborators W Client Pkt)
    (uri : URL) (mac ip : List Nat) (r : Run W) :
    (Option LinuxImage × Option Error) × Run W :=
  match call (Event.ipxeNewConfig uri) (C.ipxeNewConfig uri)
      (mark (Event.getBootImage uri mac ip) r) with
  | (Except.ok ipc, r) => ((ipc.BootImage, none), r)
  | (Except.error _, r) =>
    let wd : URL := { Scheme := uri.Scheme, Host := uri.Host, Path := C.Dir uri.Path }
    match call (Event.FindConfigFile wd mac ip) (C.FindConfigFile wd mac ip)
        (mark (Event.pxeNewConfig wd) r) with
    | (Except.error err, r) =>
      ((none, some ("failed to parse pxelinux config: ".toList ++ err)), r)
    | (Except.ok pc, r) => ((pc.Entries pc.DefaultEntry, none), r)

/-- The duration `30*time.Second`, in nanoseconds. -/
def leaseTimeout : Nat := 30 * 1000000000

/-- The body of `Netboot` from the `for _, iface := range ifs` loop on. -/
def Netboot.loop {W Client Pkt : Type} (C : Collaborators W Client Pkt) (flags : Flags) :
    List Link → Run W → Outcome × Run W
  | [], r => (Outcome.returned none, r)
  | iface :: ifs, r =>
    if iface.Name ≠ "eth0".toList then Netboot.loop C flags ifs r
    else
      match attemptDHCPLease C iface leaseTimeout 5 r with
      | (Except.error _, r) => Netboot.loop C flags ifs r
      | (Except.ok packet, r) =>
        match call (Event.Configure4 iface) (C.Configure4 iface packet.P) r with
        | (some _, r) => Netboot.loop C flags ifs r
        | (none, r) =>
          match C.Boot packet.P with
          | Except.error _ => Netboot.loop C flags ifs r
          | Except.ok uri =>
            match getBootImage C uri iface.HardwareAddr (C.LeaseIP packet.P) r with
            | ((_, some err), r) => (Outcome.returned (some err), r)
            | ((none, none), r) => (Outcome.panicked, r)
            | ((some img, none), r) =>
              let img : LinuxImage :=
                { img with Cmdline := updateBootCmdline C.Flag flags img.Cmdline }
              if flags.dryRun then
                Netboot.loop C flags ifs
                  (call (Event.ExecutionInfo img) (fun w => ((), C.ExecutionInfo img w)) r).2
              else
                Netboot.loop C flags ifs (call (Event.Execute img) (C.Execute img) r).2

/-- The function `Netboot()`, run in the world `w`. -/
def Netboot {W Client Pkt : Type} (C : Collaborators W Client Pkt) (flags : Flags) (w : W) :
    Outcome × Run W :=
  match call Event.LinkList C.LinkList ⟨w, []⟩ with
  | (Except.error err, r) => (Outcome.returned (some err), r)
  | (Except.ok ifs, r) => Netboot.loop C flags ifs r

/-- The lease stage of one loop iteration, `attemptDHCPLease` followed by
`dhclient.Configure4`: whether it failed, and the state it leaves. -/
def leaseStage {W Client Pkt : Type} (C : Collaborators W Client Pkt) (iface : Link)
    (r : Run W) : Bool × Run W :=
  match attemptDHCPLease C iface leaseTimeout 5 r with
  | (Except.error _, r) => (true, r)
  | (Except.ok packet, r) =>
    match call (Event.Configure4 iface) (C.Configure4 iface packet.P) r with
    | (some _, r) => (true, r)
    | (none, r) => (false, r)

/-- In the run over `ifs` that starts in `r`, the lease stage fails for every
candidate interface (those named `eth0`), each one met in the state its
predecessors left. -/
def everyLeaseFails {W Client Pkt : Type} (C : Collaborators W Client Pkt) :
    List Link → Run W → Bool
  | [], _ => true
  | iface :: ifs, r =>
    if iface.Name ≠ "eth0".toList then everyLeaseFails C ifs r
    else (leaseStage C iface r).1 && everyLeaseFails C ifs (leaseStage C iface r).2

/-- The calls of the resolve and dispatch stages. -/
def Event.isResolveOrDispatch : Event → Bool
  | Event.getBootImage _ _ _ => true
  | Event.ipxeNewConfig _ => true
  | Event.pxeNewConfig _ => true
  | Event.FindConfigFile _ _ _ => true
  | Event.ExecutionInfo _ => true
  | Event.Execute _ => true
  | _ => false

/-- No call of the resolve or dispatch stage has been made so far. -/
def Quiet {W : Type} (r : Run W) : Prop :=
  ∀ ev ∈ r.trace, ev.isResolveOrDispatch = false

/-- The kernel image of the sample configurations. -/
def sampleImage : LinuxImage :=
  { Kernel := 1, Initrd := 2, Cmdline := "console=tty0 root=/dev/sda1".toList }

/-- A sample environment, the world being the number of calls made so far.
The interfaces are `ifs`; bringing an interface up and creating the client
succeed; the DHCP request succeeds when `leaseOk`; the lease carries the boot
location `tftp://10.0.0.1/boot/pxelinux.0`; the ipxe probe succeeds when
`ipxeOk` and the pxe search when `pxeOk`; `Execute` fails; the running kernel
was booted with `console=ttyS0`. -/
def sampleEnv (ifs : List Link) (leaseOk ipxeOk pxeOk : Bool) : Collaborators Nat Unit Unit where
  LinkList := fun w => (Except.ok ifs, w + 1)
  IfUp := fun _ w => (none, w + 1)
  New := fun _ _ _ w => (Except.ok (), w + 1)
  Request := fun _ w =>
    (if leaseOk then Except.ok () else Except.error "no reply".toList, w + 1)
  Configure4 := fun _ _ w => (none, w + 1)
  Boot := fun _ => Except.ok
    { Scheme := "tftp".toList, Host := "10.0.0.1".toList, Path := "/boot/pxelinux.0".toList }
  LeaseIP := fun _ => [10, 0, 0, 2]
  ipxeNewConfig := fun _ w =>
    (if ipxeOk then Except.ok ⟨some sampleImage⟩ else Except.error "not an ipxe script".toList,
      w + 1)
  FindConfigFile := fun _ _ _ w =>
    (if pxeOk then
        Except.ok
          { Entries := fun label => if label = "linux".toList then some sampleImage else none,
            DefaultEntry := "linux".toList }
      else Except.error "no config found".toList,
      w + 1)
  ExecutionInfo := fun _ w => w + 1
  Execute := fun _ w => (some "kexec failed".toList, w + 1)
  Flag := fun name => if name = "console".toList then ("ttyS0".toList, true) else ([], false)
  Dir := path.Dir

/-- The sample interface `eth0`. -/
def eth0 : Link := { Name := "eth0".toList, HardwareAddr := [0, 1, 2, 3, 4, 5] }

/-- The default flags of the program: `-remove console -reuse console`, no
append-text, no dry run. -/
def defaultFlags : Flags :=
  { dryRun := false, removeCmdlineItem := "console".toList,
    reuseCmdlineItem := "console".toList, appendCmdline := [] }

/-- The sample environment in which the lease succeeds, the ipxe probe fails
and the pxe search succeeds with a configuration that has no entries, so that
its `DefaultEntry` names no key of `Entries` (a `default linux` line with no
`label linux`). -/
def sampleEnvNoEntry (ifs : List Link) : Collaborators Nat Unit Unit :=
  { sampleEnv ifs true false true with
    FindConfigFile := fun _ _ _ w =>
      (Except.ok { Entries := fun _ => none, DefaultEntry := "linux".toList }, w + 1) }

/-- The calls that the loop of `Netboot` over `ifs` can make: the lease calls
for an interface of the list named `eth0`, the resolve calls with the hardware
address of such an interface, `ExecutionInfo` in a dry run and `Execute`
otherwise; never `LinkList`. -/
def Event.fromLoop (flags : Flags) (ifs : List Link) : Event → Prop
  | Event.LinkList => False
  | Event.IfUp name => name = "eth0".toList
  | Event.New iface => iface ∈ ifs ∧ iface.Name = "eth0".toList
  | Event.Request => True
  | Event.Configure4 iface => iface ∈ ifs ∧ iface.Name = "eth0".toList
  | Event.getBootImage _ mac _ =>
    ∃ iface ∈ ifs, iface.Name = "eth0".toList ∧ mac = iface.HardwareAddr
  | Event.ipxeNewConfig _ => True
  | Event.pxeNewConfig _ => True
  | Event.FindConfigFile _ mac _ =>
    ∃ iface ∈ ifs, iface.Name = "eth0".toList ∧ mac = iface.HardwareAddr
  | Event.ExecutionInfo _ => flags.dryRun = true
  | Event.Execute _ => flags.dryRun = false

/-- The image `Netboot` hands to dispatch: `img` after the assignment
`img.Cmdline = updateBootCmdline(img.Cmdline)`. -/
def merged (Flag : List Char → List Char × Bool) (flags : Flags) (img : LinuxImage) :
    LinuxImage :=
  { img with Cmdline := updateBootCmdline Flag flags img.Cmdline }

/-- The dispatch of `Netboot`: the report `img.ExecutionInfo` when the
`dry-run` flag is set, the call `img.Execute()` otherwise (whose error is only
logged); the state after it. -/
def dispatch {W Client Pkt : Type} (C : Collaborators W Client Pkt) (flags : Flags)
    (img : LinuxImage) (r : Run W) : Run W :=
  if flags.dryRun then
    ⟨C.ExecutionInfo img r.world, r.trace ++ [Event.ExecutionInfo img]⟩
  else
    ⟨(C.Execute img r.world).2, r.trace ++ [Event.Execute img]⟩

/-- The boot location of the sample lease, `tftp://10.0.0.1/boot/pxelinux.0`. -/
def sampleUri : URL :=
  { Scheme := "tftp".toList, Host := "10.0.0.1".toList, Path := "/boot/pxelinux.0".toList }

/-- The directory of the sample boot location, `tftp://10.0.0.1/boot`. -/
def sampleDir : URL :=
  { Scheme := "tftp".toList, Host := "10.0.0.1".toList, Path := "/boot".toList }

/-- A sample interface that is not the boot interface. -/
def eth1 : Link := { Name := "eth1".toList, HardwareAddr := [0, 1, 2, 3, 4, 6] }

/-- The default flags with `-dry-run` set. -/
def dryRunFlags : Flags :=
  { dryRun := true, removeCmdlineItem := "console".toList,
    reuseCmdlineItem := "console".toList, appendCmdline := [] }

/-- The run state `r1` comes after `r`: its trace is that of `r` followed by
further calls, each of which satisfies `P`. -/
def Extends {W : Type} (P : Event → Prop) (r r1 : Run W) : Prop :=
  ∃ evs : List Event, r1.trace = r.trace ++ evs ∧ ∀ ev ∈ evs, P ev

end pxeboot
/-! ## The tokenizer: quote state, fields in one pass, well-formed field lists -/

namespace strings

/-- The state of the predicate after it has been called on every rune of `cs`
in order. -/
def stateAfter {σ : Type} (f : σ → Char → Bool × σ) : σ → List Char → σ
  | st, [] => st
  | st, c :: cs => stateAfter f (f st c).2 cs

/-- No rune of `cs` is reported as a separator when `cs` is scanned from
state `st`. -/
def noSplit {σ : Type} (f : σ → Char → Bool × σ) : σ → List Char → Bool
  | _, [] => true
  | st, c :: cs => !(f st c).1 && noSplit f (f st c).2 cs

/-- The fields themselves, produced in one pass: `cur` is the field being
read, if any. -/
def fieldsFrom {σ : Type} (f : σ → Char → Bool × σ) :
    σ → Option (List Char) → List Char → List (List Char)
  | _, none, [] => []
  | _, some t, [] => [t]
  | st, cur, c :: cs =>
    if (f st c).1 then
      match cur with
      | some t => t :: fieldsFrom f (f st c).2 none cs
      | none => fieldsFrom f (f st c).2 none cs
    else
      match cur with
      | some t => fieldsFrom f (f st c).2 (some (t ++ [c])) cs
      | none => fieldsFrom f (f st c).2 (some [c]) cs

/-- A field that can stand last on a line: not empty, and scanned from the
initial state `s0` no rune of it is a separator. -/
def OpenField {σ : Type} (f : σ → Char → Bool × σ) (s0 : σ) (t : List Char) : Prop :=
  t ≠ [] ∧ noSplit f s0 t = true

/-- A field that can be followed by another one: an open field after which
the predicate is back in its initial state. -/
def ClosedField {σ : Type} (f : σ → Char → Bool × σ) (s0 : σ) (t : List Char) : Prop :=
  OpenField f s0 t ∧ stateAfter f s0 t = s0

/-- A list of fields all of which are closed, except that the last one need
only be open. -/
def GoodFields {σ : Type} (f : σ → Char → Bool × σ) (s0 : σ) : List (List Char) → Prop
  | [] => True
  | [t] => OpenField f s0 t
  | t :: t' :: ts => ClosedField f s0 t ∧ GoodFields f s0 (t' :: ts)

end strings
/-! ## The tokenizer: spans and fields -/

namespace strings

theorem loop_acc {σ : Type} (f : σ → Char → Bool × σ) (cs : List Char) :
    ∀ (st : σ) (start : Option Nat) (i : Nat) (acc : List Span),
      FieldsFunc.loop f st start i cs acc = acc ++ FieldsFunc.loop f st start i cs [] := by
  induction cs with
  | nil =>
    intro st start i acc
    cases start <;> simp [FieldsFunc.loop]
  | cons c cs ih =>
    intro st start i acc
    cases start with
    | none =>
      by_cases h : (f st c).1 = true
      · simp only [FieldsFunc.loop, h, if_true]
        exact ih _ _ _ _
      · simp only [FieldsFunc.loop, h, Bool.false_eq_true, if_false]
        exact ih _ _ _ _
    | some a =>
      by_cases h : (f st c).1 = true
      · simp only [FieldsFunc.loop, h, if_true]
        rw [ih _ _ _ (acc ++ [Span.mk a i]), ih _ _ _ ([] ++ [Span.mk a i])]
        simp
      · simp only [FieldsFunc.loop, h, Bool.false_eq_true, if_false]
        exact ih _ _ _ _

theorem slice_append_left (pre cs : List Char) (a : Nat) :
    slice (pre ++ cs) a pre.length = pre.drop a := by
  simp [slice]

theorem loop_map_slice {σ : Type} (f : σ → Char → Bool × σ) (cs : List Char) :
    ∀ (pre : List Char) (st : σ) (start : Option Nat),
      (∀ a, start = some a → a ≤ pre.length) →
      (FieldsFunc.loop f st start pre.length cs []).map
          (fun sp => slice (pre ++ cs) sp.start sp.stop)
        = fieldsFrom f st (start.map (fun a => pre.drop a)) cs := by
  induction cs with
  | nil =>
    intro pre st start _
    cases start with
    | none => simp [FieldsFunc.loop, fieldsFrom]
    | some a => simp [FieldsFunc.loop, fieldsFrom, slice]
  | cons c cs ih =>
    intro pre st start hle
    have hpre : pre ++ c :: cs = (pre ++ [c]) ++ cs := by simp
    have hlen : pre.length + 1 = (pre ++ [c]).length := by simp
    cases start with
    | none =>
      by_cases h : (f st c).1 = true
      · simp only [FieldsFunc.loop, fieldsFrom, h, if_true, Option.map_none']
        rw [hpre, hlen]
        exact ih (pre ++ [c]) _ none (by simp)
      · simp only [FieldsFunc.loop, fieldsFrom, h, Bool.false_eq_true, if_false, Option.map_none']
        rw [hpre, hlen]
        have := ih (pre ++ [c]) (f st c).2 (some pre.length) (by simp)
        simpa using this
    | some a =>
      have ha : a ≤ pre.length := hle a rfl
      by_cases h : (f st c).1 = true
      · simp only [FieldsFunc.loop, fieldsFrom, h, if_true, Option.map_some']
        rw [loop_acc, List.map_append]
        simp only [List.nil_append, List.map_cons, List.map_nil, List.singleton_append]
        rw [slice_append_left]
        congr 1
        rw [hpre, hlen]
        exact ih (pre ++ [c]) _ none (by simp)
      · simp only [FieldsFunc.loop, fieldsFrom, h, Bool.false_eq_true, if_false, Option.map_some']
        rw [hpre, hlen]
        have := ih (pre ++ [c]) (f st c).2 (some a) (by simp; omega)
        rw [this]
        simp [List.drop_append_of_le_length ha]

/-- The fields of `strings.FieldsFunc`, as produced in one pass. -/
theorem FieldsFunc_eq_fieldsFrom {σ : Type} (s : List Char) (f : σ → Char → Bool × σ)
    (init : σ) : FieldsFunc s f init = fieldsFrom f init none s := by
  have := loop_map_slice f s [] init none (by simp)
  simpa [FieldsFunc, FieldsFunc.spans] using this

theorem stateAfter_append {σ : Type} (f : σ → Char → Bool × σ) (a b : List Char) :
    ∀ st : σ, stateAfter f st (a ++ b) = stateAfter f (stateAfter f st a) b := by
  induction a with
  | nil => intro st; rfl
  | cons c a ih => intro st; simp [stateAfter, ih]

theorem noSplit_append {σ : Type} (f : σ → Char → Bool × σ) (a b : List Char) :
    ∀ st : σ, noSplit f st (a ++ b) = (noSplit f st a && noSplit f (stateAfter f st a) b) := by
  induction a with
  | nil => intro st; simp [noSplit, stateAfter]
  | cons c a ih => intro st; simp [noSplit, stateAfter, ih, Bool.and_assoc]

theorem fieldsFrom_noSplit_some {σ : Type} (f : σ → Char → Bool × σ) (t rest : List Char) :
    ∀ (st : σ) (cur : List Char), noSplit f st t = true →
      fieldsFrom f st (some cur) (t ++ rest)
        = fieldsFrom f (stateAfter f st t) (some (cur ++ t)) rest := by
  induction t with
  | nil => intro st cur _; simp [stateAfter]
  | cons c t ih =>
    intro st cur h
    simp only [noSplit, Bool.and_eq_true, Bool.not_eq_true'] at h
    rw [List.cons_append]
    simp only [fieldsFrom, h.1, Bool.false_eq_true, if_false, stateAfter]
    rw [ih _ _ h.2]
    simp

theorem fieldsFrom_noSplit_none {σ : Type} (f : σ → Char → Bool × σ) (t rest : List Char)
    (st : σ) (hne : t ≠ []) (h : noSplit f st t = true) :
    fieldsFrom f st none (t ++ rest) = fieldsFrom f (stateAfter f st t) (some t) rest := by
  cases t with
  | nil => exact absurd rfl hne
  | cons c t =>
    simp only [noSplit, Bool.and_eq_true, Bool.not_eq_true'] at h
    rw [List.cons_append]
    simp only [fieldsFrom, h.1, Bool.false_eq_true, if_false, stateAfter]
    rw [fieldsFrom_noSplit_some f t rest _ _ h.2]
    simp

theorem goodFields_cons {σ : Type} (f : σ → Char → Bool × σ) (s0 : σ) (t : List Char)
    (ts : List (List Char)) (ht : ClosedField f s0 t) (hts : GoodFields f s0 ts) :
    GoodFields f s0 (t :: ts) := by
  cases ts with
  | nil => exact ht.1
  | cons t' ts => exact ⟨ht, hts⟩

theorem goodFields_tail {σ : Type} (f : σ → Char → Bool × σ) (s0 : σ) (t : List Char)
    (ts : List (List Char)) (h : GoodFields f s0 (t :: ts)) : GoodFields f s0 ts := by
  cases ts with
  | nil => trivial
  | cons t' ts => exact h.2

theorem goodFields_filter {σ : Type} (f : σ → Char → Bool × σ) (s0 : σ) (p : List Char → Bool) :
    ∀ ts : List (List Char), GoodFields f s0 ts → GoodFields f s0 (ts.filter p) := by
  intro ts
  induction ts with
  | nil => intro h; simpa using h
  | cons t ts ih =>
    intro h
    have htl := ih (goodFields_tail f s0 t ts h)
    by_cases hp : p t = true
    · rw [List.filter_cons_of_pos hp]
      cases ts with
      | nil => simpa using h
      | cons t' ts => exact goodFields_cons f s0 t _ h.1 htl
    · rw [List.filter_cons_of_neg hp]
      exact htl

theorem fieldsFrom_good_aux {σ : Type} (f : σ → Char → Bool × σ) (s0 : σ)
    (hbefore : ∀ st c, (f st c).1 = true → st = s0)
    (hafter : ∀ st c, (f st c).1 = true → (f st c).2 = s0) (cs : List Char) :
    GoodFields f s0 (fieldsFrom f s0 none cs) ∧
    ∀ (st : σ) (cur : List Char), OpenField f s0 cur → stateAfter f s0 cur = st →
      GoodFields f s0 (fieldsFrom f st (some cur) cs) := by
  induction cs with
  | nil =>
    refine ⟨by simp [fieldsFrom, GoodFields], ?_⟩
    intro st cur hcur _
    simpa [fieldsFrom, GoodFields] using hcur
  | cons c cs ih =>
    constructor
    · by_cases h : (f s0 c).1 = true
      · simp only [fieldsFrom, h, if_true]
        rw [hafter s0 c h]
        exact ih.1
      · simp only [fieldsFrom, h, Bool.false_eq_true, if_false]
        refine ih.2 _ [c] ⟨by simp, ?_⟩ (by simp [stateAfter])
        simp [noSplit, h]
    · intro st cur hcur hst
      by_cases h : (f st c).1 = true
      · simp only [fieldsFrom, h, if_true]
        rw [hafter st c h]
        refine goodFields_cons f s0 cur _ ⟨hcur, ?_⟩ ih.1
        rw [hst]
        exact hbefore st c h
      · simp only [fieldsFrom, h, Bool.false_eq_true, if_false]
        refine ih.2 _ (cur ++ [c]) ⟨by simp, ?_⟩ ?_
        · rw [noSplit_append, hcur.2, hst]
          simp [noSplit, h]
        · rw [stateAfter_append, hst]
          simp [stateAfter]

/-- The fields of a line: every field but the last is closed, the last is
open. -/
theorem FieldsFunc_good {σ : Type} (f : σ → Char → Bool × σ) (s0 : σ)
    (hbefore : ∀ st c, (f st c).1 = true → st = s0)
    (hafter : ∀ st c, (f st c).1 = true → (f st c).2 = s0) (s : List Char) :
    GoodFields f s0 (FieldsFunc s f s0) := by
  rw [FieldsFunc_eq_fieldsFrom]
  exact (fieldsFrom_good_aux f s0 hbefore hafter s).1

/-- Joining good fields with a separator rune and splitting again gives the
fields back. -/
theorem FieldsFunc_Join {σ : Type} (f : σ → Char → Bool × σ) (s0 : σ) (sep : Char)
    (hsep : (f s0 sep).1 = true)
    (hafter : ∀ st c, (f st c).1 = true → (f st c).2 = s0) :
    ∀ ts : List (List Char), GoodFields f s0 ts → FieldsFunc (Join ts [sep]) f s0 = ts := by
  intro ts
  rw [FieldsFunc_eq_fieldsFrom]
  induction ts with
  | nil => intro _; simp [Join, fieldsFrom]
  | cons t ts ih =>
    intro h
    cases ts with
    | nil =>
      have h1 : OpenField f s0 t := h
      have := fieldsFrom_noSplit_none f t [] s0 h1.1 h1.2
      simp only [List.append_nil] at this
      simp [Join, this, fieldsFrom]
    | cons t' ts =>
      have h1 : ClosedField f s0 t := h.1
      have h2 := ih h.2
      simp only [Join, List.append_assoc, List.singleton_append]
      rw [fieldsFrom_noSplit_none f t _ s0 h1.1.1 h1.1.2, h1.2]
      simp only [fieldsFrom, hsep, if_true, hafter s0 sep hsep]
      rw [h2]

end strings
/-! ## Spans that cover an unsplit stretch of the input -/

namespace strings

theorem loop_pending {σ : Type} (f : σ → Char → Bool × σ) (rest : List Char) :
    ∀ (st : σ) (a j : Nat),
      ∃ e, j ≤ e ∧ e ≤ j + rest.length ∧ Span.mk a e ∈ FieldsFunc.loop f st (some a) j rest [] := by
  induction rest with
  | nil =>
    intro st a j
    exact ⟨j, le_refl _, by simp, by simp [FieldsFunc.loop]⟩
  | cons c rest ih =>
    intro st a j
    by_cases h : (f st c).1 = true
    · refine ⟨j, le_refl _, by simp, ?_⟩
      simp only [FieldsFunc.loop, h, if_true]
      rw [loop_acc]
      simp
    · obtain ⟨e, h1, h2, h3⟩ := ih (f st c).2 a (j + 1)
      refine ⟨e, by omega, by simp only [List.length_cons]; omega, ?_⟩
      simp only [FieldsFunc.loop, h, Bool.false_eq_true, if_false]
      exact h3

theorem loop_noSplit {σ : Type} (f : σ → Char → Bool × σ) (mid rest : List Char) :
    ∀ (st : σ) (a j : Nat) (acc : List Span), noSplit f st mid = true →
      FieldsFunc.loop f st (some a) j (mid ++ rest) acc
        = FieldsFunc.loop f (stateAfter f st mid) (some a) (j + mid.length) rest acc := by
  induction mid with
  | nil => intro st a j acc _; simp [stateAfter]
  | cons c mid ih =>
    intro st a j acc h
    simp only [noSplit, Bool.and_eq_true, Bool.not_eq_true'] at h
    rw [List.cons_append]
    simp only [FieldsFunc.loop, h.1, Bool.false_eq_true, if_false, stateAfter]
    rw [ih _ _ _ _ h.2]
    congr 1
    simp only [List.length_cons]
    omega

theorem loop_scan_initial {σ : Type} (f : σ → Char → Bool × σ) (p : List Char) :
    ∀ (st : σ) (start : Option Nat) (i : Nat) (acc : List Span),
      (∀ a, start = some a → a ≤ i) →
      ∃ (start1 : Option Nat) (acc1 : List Span),
        (∀ a, start1 = some a → a ≤ i + p.length) ∧
        ∀ cs, FieldsFunc.loop f st start i (p ++ cs) acc
          = FieldsFunc.loop f (stateAfter f st p) start1 (i + p.length) cs acc1 := by
  induction p with
  | nil =>
    intro st start i acc h
    exact ⟨start, acc, by simpa using h, by intro cs; simp [stateAfter]⟩
  | cons c p ih =>
    intro st start i acc h
    have hlen : i + (c :: p).length = i + 1 + p.length := by simp only [List.length_cons]; omega
    cases start with
    | none =>
      by_cases hs : (f st c).1 = true
      · obtain ⟨s1, a1, h1, h2⟩ := ih (f st c).2 none (i + 1) acc (by simp)
        refine ⟨s1, a1, by rw [hlen]; exact h1, ?_⟩
        intro cs
        rw [List.cons_append, hlen]
        simp only [FieldsFunc.loop, hs, if_true, stateAfter]
        exact h2 cs
      · obtain ⟨s1, a1, h1, h2⟩ := ih (f st c).2 (some i) (i + 1) acc (by simp)
        refine ⟨s1, a1, by rw [hlen]; exact h1, ?_⟩
        intro cs
        rw [List.cons_append, hlen]
        simp only [FieldsFunc.loop, hs, Bool.false_eq_true, if_false, stateAfter]
        exact h2 cs
    | some a =>
      have ha : a ≤ i := h a rfl
      by_cases hs : (f st c).1 = true
      · obtain ⟨s1, a1, h1, h2⟩ := ih (f st c).2 none (i + 1) (acc ++ [Span.mk a i]) (by simp)
        refine ⟨s1, a1, by rw [hlen]; exact h1, ?_⟩
        intro cs
        rw [List.cons_append, hlen]
        simp only [FieldsFunc.loop, hs, if_true, stateAfter]
        exact h2 cs
      · obtain ⟨s1, a1, h1, h2⟩ := ih (f st c).2 (some a) (i + 1) acc
          (by intro b hb; cases hb; omega)
        refine ⟨s1, a1, by rw [hlen]; exact h1, ?_⟩
        intro cs
        rw [List.cons_append, hlen]
        simp only [FieldsFunc.loop, hs, Bool.false_eq_true, if_false, stateAfter]
        exact h2 cs

/-- A stretch `mid` of the input in which the predicate reports no separator
lies inside one recorded span. -/
theorem spans_cover {σ : Type} (f : σ → Char → Bool × σ) (s0 : σ) (p mid r : List Char)
    (hne : mid ≠ []) (h : noSplit f (stateAfter f s0 p) mid = true) :
    ∃ sp ∈ FieldsFunc.spans (p ++ mid ++ r) f s0,
      sp.start ≤ p.length ∧ p.length + mid.length ≤ sp.stop ∧
      sp.stop ≤ (p ++ mid ++ r).length := by
  obtain ⟨s1, a1, h1, h2⟩ := loop_scan_initial f p s0 none 0 [] (by simp)
  cases mid with
  | nil => exact absurd rfl hne
  | cons c mid =>
    simp only [noSplit, Bool.and_eq_true, Bool.not_eq_true'] at h
    have key : ∃ a, a ≤ p.length ∧
        FieldsFunc.spans (p ++ (c :: mid) ++ r) f s0
          = a1 ++ FieldsFunc.loop f (stateAfter f (stateAfter f s0 p) (c :: mid)) (some a)
              (p.length + (c :: mid).length) r [] := by
      have hstep : ∀ a, s1.getD p.length = a →
          FieldsFunc.spans (p ++ (c :: mid) ++ r) f s0
            = a1 ++ FieldsFunc.loop f (stateAfter f (stateAfter f s0 p) (c :: mid)) (some a)
                (p.length + (c :: mid).length) r [] := by
        intro a hadef
        unfold FieldsFunc.spans
        rw [List.append_assoc, h2, List.cons_append]
        simp only [Nat.zero_add]
        have hl : p.length + (c :: mid).length = p.length + 1 + mid.length := by
          simp only [List.length_cons]; omega
        cases s1 with
        | none =>
          simp only [Option.getD] at hadef
          subst hadef
          simp only [FieldsFunc.loop, h.1, Bool.false_eq_true, if_false, stateAfter]
          rw [loop_noSplit f mid r _ _ _ _ h.2, loop_acc, hl]
        | some s =>
          simp only [Option.getD] at hadef
          subst hadef
          simp only [FieldsFunc.loop, h.1, Bool.false_eq_true, if_false, stateAfter]
          rw [loop_noSplit f mid r _ _ _ _ h.2, loop_acc, hl]
      cases hs : s1 with
      | none => exact ⟨p.length, le_refl _, hstep _ (by simp [hs])⟩
      | some s =>
        refine ⟨s, ?_, hstep _ (by simp [hs])⟩
        have := h1 s hs
        simpa using this
    obtain ⟨a, ha, hsp⟩ := key
    obtain ⟨e, he1, he2, he3⟩ :=
      loop_pending f r (stateAfter f (stateAfter f s0 p) (c :: mid)) a
        (p.length + (c :: mid).length)
    refine ⟨Span.mk a e, ?_, ha, he1, ?_⟩
    · rw [hsp]
      exact List.mem_append_right _ he3
    · simp only [List.length_append] at he2 ⊢
      exact he2

theorem slice_within (s : List Char) (a b : Nat) : slice s a b <:+: s :=
  (List.drop_suffix a (s.take b)).isInfix.trans (List.take_prefix b s).isInfix

theorem FieldsFunc_within {σ : Type} (s : List Char) (f : σ → Char → Bool × σ) (init : σ) :
    ∀ t ∈ FieldsFunc s f init, t <:+: s := by
  intro t ht
  unfold FieldsFunc at ht
  obtain ⟨sp, _, rfl⟩ := List.mem_map.1 ht
  exact slice_within s sp.start sp.stop

end strings
/-! ## `cmdlinefilter.Remove` -/

namespace cmdlinefilter

theorem canonicalizeLoop_eq (fields : List (List Char)) : canonicalizeLoop fields = fields := by
  have h : ∀ (l acc : List (List Char)),
      List.foldl (fun fields f =>
        let _f := strings.Replace f '-' '_'
        fields) acc l = acc := by
    intro l
    induction l with
    | nil => intro acc; rfl
    | cons f fs ih => intro acc; exact ih acc
  exact h fields fields

theorem Index_nonneg (s : List Char) (c : Char) : -1 ≤ strings.Index s c := by
  induction s with
  | nil => simp [strings.Index]
  | cons y ys ih =>
    simp only [strings.Index]
    split_ifs <;> omega

theorem skipLoop_eq (k : List Char) (fields : List (List Char)) :
    skipLoop k fields = decide (k ∈ fields) := by
  induction fields with
  | nil => simp [skipLoop]
  | cons f fs ih =>
    by_cases h : k = f
    · simp [skipLoop, h]
    · simp [skipLoop, h, ih]

theorem Index_eq_neg_one (s : List Char) (c : Char) :
    strings.Index s c = -1 ↔ c ∉ s := by
  induction s with
  | nil => simp [strings.Index]
  | cons x xs ih =>
    by_cases h : x = c
    · simp [strings.Index, h]
    · by_cases h2 : strings.Index xs c = -1
      · have := ih.1 h2
        simp [strings.Index, h, h2, this, Ne.symm h]
      · have hmem : c ∈ xs := by
          by_contra hc
          exact h2 (ih.2 hc)
        have hnn := Index_nonneg xs c
        simp only [strings.Index, h, if_false, h2]
        constructor
        · intro h3; omega
        · intro h3; exact absurd (List.mem_cons_of_mem _ hmem) h3

theorem take_Index (s : List Char) (c : Char) (h : strings.Index s c ≠ -1) :
    s.take (strings.Index s c).toNat = s.takeWhile (fun x => x != c) := by
  induction s with
  | nil => simp
  | cons x xs ih =>
    by_cases hx : x = c
    · simp [strings.Index, hx]
    · have h2 : strings.Index xs c ≠ -1 := by
        intro h3
        apply h
        simp [strings.Index, hx, h3]
      have hnn := Index_nonneg xs c
      have hto : (strings.Index xs c + 1).toNat = (strings.Index xs c).toNat + 1 := by omega
      simp only [strings.Index, hx, if_false, h2, hto, List.take_succ_cons]
      rw [ih h2, List.takeWhile_cons]
      simp [hx]

theorem keyOf_eq_specKey (flag : List Char) : keyOf flag = specKey flag := by
  unfold keyOf specKey
  by_cases h : strings.Index flag '=' = -1
  · have hmem := (Index_eq_neg_one flag '=').1 h
    simp only [h, if_true]
    symm
    rw [List.takeWhile_eq_self_iff]
    intro x hx
    simp only [bne_iff_ne, ne_eq]
    intro hxe
    exact hmem (hxe ▸ hx)
  · simp only [h, if_false, strings.slice, List.drop_zero]
    exact take_Index flag '=' h

theorem Replace_eq_canonical (k : List Char) : strings.Replace k '-' '_' = canonical k := rfl

/-- The main loop of `Remove` appends to `newCl` the flags it keeps, in order. -/
theorem foldl_removeStep (fields : List (List Char)) (flags : List (List Char)) :
    ∀ acc : List (List Char),
      flags.foldl (removeStep fields) acc
        = acc ++ flags.filter
            (fun t => decide (t ≠ []) && decide (canonical (specKey t) ∉ fields)) := by
  induction flags with
  | nil => intro acc; simp
  | cons t ts ih =>
    intro acc
    rw [List.foldl_cons, ih]
    by_cases h0 : t = []
    · simp [removeStep, h0]
    · have hlen : t.length ≠ 0 := by simpa using h0
      by_cases hm : canonical (specKey t) ∈ fields
      · simp [removeStep, hlen, h0, hm, skipLoop_eq, keyOf_eq_specKey, Replace_eq_canonical]
      · simp [removeStep, hlen, h0, hm, skipLoop_eq, keyOf_eq_specKey, Replace_eq_canonical]

theorem quotedFieldsCheck_sep_before (st c : Char) (h : (quotedFieldsCheck st c).1 = true) :
    st = Char.ofNat 0 := by
  unfold quotedFieldsCheck at h
  by_cases h1 : c = st
  · simp [h1] at h
  · by_cases h2 : st = Char.ofNat 0
    · exact h2
    · simp [h1, h2] at h

theorem quotedFieldsCheck_sep_after (st c : Char) (h : (quotedFieldsCheck st c).1 = true) :
    (quotedFieldsCheck st c).2 = Char.ofNat 0 := by
  have hst := quotedFieldsCheck_sep_before st c h
  subst hst
  unfold quotedFieldsCheck at h ⊢
  by_cases h1 : c = Char.ofNat 0
  · simp [h1] at h
  · by_cases h3 : unicode.In c unicode.Quotation_Mark = true
    · simp [h1, h3] at h
    · simp [h1, h3]

theorem quotedFieldsCheck_space :
    (quotedFieldsCheck (Char.ofNat 0) ' ').1 = true := by decide

theorem tokens_good (cl : List Char) :
    strings.GoodFields quotedFieldsCheck (Char.ofNat 0) (tokens cl) :=
  strings.FieldsFunc_good quotedFieldsCheck (Char.ofNat 0) quotedFieldsCheck_sep_before
    quotedFieldsCheck_sep_after cl

theorem tokens_ne_nil (cl : List Char) : ∀ t ∈ tokens cl, t ≠ [] := by
  have h := tokens_good cl
  generalize tokens cl = ts at h
  induction ts with
  | nil => simp
  | cons t ts ih =>
    intro x hx
    rcases List.mem_cons.1 hx with rfl | hx
    · cases ts with
      | nil => exact h.1
      | cons t' ts => exact h.1.1.1
    · exact ih (strings.goodFields_tail _ _ _ _ h) x hx

/-- The line `Remove` returns: the tokens whose canonical key is no entry of
`fields`, joined by one space. -/
theorem Remove_eq_filter (cl : List Char) (fields : List (List Char)) :
    Remove cl fields
      = strings.Join ((tokens cl).filter
          (fun t => decide (canonical (specKey t) ∉ fields))) [' '] := by
  unfold Remove
  simp only [canonicalizeLoop_eq]
  rw [foldl_removeStep]
  simp only [List.nil_append]
  congr 1
  apply List.filter_congr
  intro t ht
  have : t ≠ [] := tokens_ne_nil cl t ht
  simp [this]

theorem tokens_Join (ts : List (List Char))
    (h : strings.GoodFields quotedFieldsCheck (Char.ofNat 0) ts) :
    tokens (strings.Join ts [' ']) = ts :=
  strings.FieldsFunc_Join quotedFieldsCheck (Char.ofNat 0) ' ' quotedFieldsCheck_space
    quotedFieldsCheck_sep_after ts h

/-- Tokenizing the line `Remove` returns gives the kept tokens back. -/
theorem tokens_Remove (cl : List Char) (fields : List (List Char)) :
    tokens (Remove cl fields)
      = (tokens cl).filter (fun t => decide (canonical (specKey t) ∉ fields)) := by
  rw [Remove_eq_filter]
  exact tokens_Join _ (strings.goodFields_filter _ _ _ _ (tokens_good cl))

end cmdlinefilter
/-! ## Properties of `Remove` and `Update` -/

namespace cmdlinefilter

theorem foldl_reuse (Flag : List Char → List Char × Bool) (reuse : List (List Char)) :
    ∀ acl : List Char,
      reuse.foldl (fun acl f =>
          if (Flag f).2 then acl ++ [' '] ++ f ++ ['='] ++ (Flag f).1 else acl) acl
        = acl ++ reuseTokens Flag reuse := by
  induction reuse with
  | nil => intro acl; simp [reuseTokens]
  | cons k ks ih =>
    intro acl
    rw [List.foldl_cons, ih]
    by_cases h : (Flag k).2 = true
    · simp [reuseTokens, h]
    · simp [reuseTokens, h]

theorem reuseTokens_absent (Flag : List Char → List Char × Bool) (reuse : List (List Char))
    (h : ∀ k ∈ reuse, (Flag k).2 = false) : reuseTokens Flag reuse = [] := by
  induction reuse with
  | nil => rfl
  | cons k ks ih =>
    have hk : (Flag k).2 = false := h k (List.mem_cons_self _ _)
    have hks := ih (fun x hx => h x (List.mem_cons_of_mem _ hx))
    simp [reuseTokens, hk, hks]

theorem canonical_of_no_dash (f : List Char) (h : '-' ∉ f) : canonical f = f := by
  induction f with
  | nil => rfl
  | cons c cs ih =>
    have hc : c ≠ '-' := fun e => h (e ▸ List.mem_cons_self _ _)
    have hcs : '-' ∉ cs := fun e => h (List.mem_cons_of_mem _ e)
    simp only [canonical, List.map_cons, hc, if_false]
    congr 1
    exact ih hcs

theorem quote_ne_zero (q : Char) (hq : unicode.In q unicode.Quotation_Mark = true) :
    q ≠ Char.ofNat 0 := by
  intro h
  subst h
  revert hq
  decide

theorem quotedFieldsCheck_open (q : Char) (hq : unicode.In q unicode.Quotation_Mark = true) :
    quotedFieldsCheck (Char.ofNat 0) q = (false, q) := by
  have h0 := quote_ne_zero q hq
  simp [quotedFieldsCheck, h0, hq]

theorem quotedFieldsCheck_inside (q c : Char) (h0 : q ≠ Char.ofNat 0) (hc : c ≠ q) :
    quotedFieldsCheck q c = (false, q) := by
  simp [quotedFieldsCheck, h0, hc]

theorem quotedFieldsCheck_close (q : Char) :
    quotedFieldsCheck q q = (false, Char.ofNat 0) := by
  simp [quotedFieldsCheck]

theorem inside_quote (q : Char) (h0 : q ≠ Char.ofNat 0) (b : List Char) (hb : q ∉ b) :
    strings.noSplit quotedFieldsCheck q b = true ∧
      strings.stateAfter quotedFieldsCheck q b = q := by
  induction b with
  | nil => exact ⟨rfl, rfl⟩
  | cons c cs ih =>
    have hc : c ≠ q := fun e => hb (e ▸ List.mem_cons_self _ _)
    have hcs : q ∉ cs := fun e => hb (List.mem_cons_of_mem _ e)
    have := ih hcs
    simp [strings.noSplit, strings.stateAfter, quotedFieldsCheck_inside q c h0 hc, this]

/-- From a state with no open quote, a span `q b q` whose body has no `q` is
scanned without a separator, and closes the quote again. -/
theorem quoted_span_noSplit (q : Char) (hq : unicode.In q unicode.Quotation_Mark = true)
    (b : List Char) (hb : q ∉ b) :
    strings.noSplit quotedFieldsCheck (Char.ofNat 0) ([q] ++ b ++ [q]) = true ∧
      strings.stateAfter quotedFieldsCheck (Char.ofNat 0) ([q] ++ b ++ [q]) = Char.ofNat 0 := by
  have h0 := quote_ne_zero q hq
  obtain ⟨h1, h2⟩ := inside_quote q h0 b hb
  constructor
  · rw [List.append_assoc, List.singleton_append]
    simp only [strings.noSplit, quotedFieldsCheck_open q hq, Bool.not_false, Bool.true_and]
    rw [strings.noSplit_append, h1, h2]
    simp [strings.noSplit, quotedFieldsCheck_close]
  · rw [List.append_assoc, List.singleton_append]
    simp only [strings.stateAfter, quotedFieldsCheck_open q hq]
    rw [strings.stateAfter_append, h2]
    simp [strings.stateAfter, quotedFieldsCheck_close]

end cmdlinefilter

/-- C1, evaluated at the failing input: with the removal entry `my-flag`
(written with a dash) both `Remove` and `removeFromCmdline` keep the tokens
`my-flag=1` and `my_flag=1`, although the entry `my_flag` removes both. -/
theorem Remove_dash_entry_keeps_token :
    cmdlinefilter.Remove "my-flag=1".toList ["my-flag".toList] = "my-flag=1".toList ∧
    cmdlinefilter.Remove "my_flag=1".toList ["my-flag".toList] = "my_flag=1".toList ∧
    pxeboot.removeFromCmdline "my-flag=1".toList ["my-flag".toList] = "my-flag=1".toList ∧
    pxeboot.removeFromCmdline "my_flag=1".toList ["my-flag".toList] = "my_flag=1".toList ∧
    cmdlinefilter.Remove "my-flag=1".toList ["my_flag".toList] = [] ∧
    cmdlinefilter.Remove "my_flag=1".toList ["my_flag".toList] = [] ∧
    cmdlinefilter.canonical "my-flag".toList = cmdlinefilter.canonical "my_flag".toList := by
  decide

/-- C2: `Remove` is idempotent: filtering the line it returns with the same
removal list gives that line again, for every line and every list. -/
theorem Remove_idempotent (s : List Char) (F : List (List Char)) :
    cmdlinefilter.Remove (cmdlinefilter.Remove s F) F = cmdlinefilter.Remove s F := by
  rw [cmdlinefilter.Remove_eq_filter (cmdlinefilter.Remove s F) F,
    cmdlinefilter.tokens_Remove, List.filter_filter, cmdlinefilter.Remove_eq_filter]
  simp

/-- C3: a quoted span is never split.  When no quote is open after the prefix
`p`, `q` is a quotation mark and the body `b` has no `q`, the stretch `q b q`
of the line `p q b q r` lies between the start and the end of one span of the
tokenizer, whose slice is one of the tokens; and
`Remove("a b=\"c d\" e", [])` is the line unchanged. -/
theorem quoted_span_in_one_token (p b r : List Char) (q : Char)
    (hp : strings.stateAfter cmdlinefilter.quotedFieldsCheck (Char.ofNat 0) p = Char.ofNat 0)
    (hq : unicode.In q unicode.Quotation_Mark = true) (hb : q ∉ b) :
    (∃ sp ∈ strings.FieldsFunc.spans (p ++ ([q] ++ b ++ [q]) ++ r)
          cmdlinefilter.quotedFieldsCheck (Char.ofNat 0),
      sp.start ≤ p.length ∧ p.length + (b.length + 2) ≤ sp.stop ∧
      sp.stop ≤ (p ++ ([q] ++ b ++ [q]) ++ r).length ∧
      strings.slice (p ++ ([q] ++ b ++ [q]) ++ r) sp.start sp.stop
        ∈ cmdlinefilter.tokens (p ++ ([q] ++ b ++ [q]) ++ r)) ∧
    cmdlinefilter.Remove "a b=\"c d\" e".toList [] = "a b=\"c d\" e".toList := by
  refine ⟨?_, by decide⟩
  have hns := (cmdlinefilter.quoted_span_noSplit q hq b hb).1
  rw [← hp] at hns
  obtain ⟨sp, hmem, h1, h2, h3⟩ :=
    strings.spans_cover cmdlinefilter.quotedFieldsCheck (Char.ofNat 0) p ([q] ++ b ++ [q]) r
      (by simp) hns
  refine ⟨sp, hmem, h1, ?_, h3, ?_⟩
  · have hl : ([q] ++ b ++ [q]).length = b.length + 2 := by
      simp only [List.length_append, List.length_singleton]; omega
    rw [hl] at h2
    exact h2
  · unfold cmdlinefilter.tokens strings.FieldsFunc
    exact List.mem_map.2 ⟨sp, hmem, rfl⟩

/-- C3, at the line `a b="c d" e`: prefix `a b=`, quote `"`, body `c d`,
suffix ` e`. -/
theorem quoted_span_in_one_token_witness :
    strings.stateAfter cmdlinefilter.quotedFieldsCheck (Char.ofNat 0) "a b=".toList
        = Char.ofNat 0 ∧
    unicode.In (Char.ofNat 34) unicode.Quotation_Mark = true ∧
    Char.ofNat 34 ∉ "c d".toList ∧
    ∃ sp ∈ strings.FieldsFunc.spans
          ("a b=".toList ++ ([Char.ofNat 34] ++ "c d".toList ++ [Char.ofNat 34]) ++ " e".toList)
          cmdlinefilter.quotedFieldsCheck (Char.ofNat 0),
      sp.start ≤ 4 ∧ 9 ≤ sp.stop :=
  ⟨by decide, by decide, by decide,
    let ⟨sp, hmem, h1, h2, _, _⟩ :=
      (quoted_span_in_one_token "a b=".toList "c d".toList " e".toList (Char.ofNat 34)
        (by decide) (by decide) (by decide)).1
    ⟨sp, hmem, h1, h2⟩⟩

/-- C4: `Remove` only drops whole tokens.  Its result is the single-space join
of the tokens of the line whose canonical key is no entry of the removal list;
these form a subsequence of the token list (same order), and every token is a
non-empty contiguous piece of the input, copied unchanged. -/
theorem Remove_keeps_subsequence (cl : List Char) (fields : List (List Char)) :
    cmdlinefilter.Remove cl fields
      = strings.Join ((cmdlinefilter.tokens cl).filter
          (fun t => decide (cmdlinefilter.canonical (cmdlinefilter.specKey t) ∉ fields))) [' '] ∧
    ((cmdlinefilter.tokens cl).filter
        (fun t => decide (cmdlinefilter.canonical (cmdlinefilter.specKey t) ∉ fields))).Sublist
      (cmdlinefilter.tokens cl) ∧
    ∀ t ∈ cmdlinefilter.tokens cl, t ≠ [] ∧ t <:+: cl :=
  ⟨cmdlinefilter.Remove_eq_filter cl fields, List.filter_sublist _,
    fun t ht => ⟨cmdlinefilter.tokens_ne_nil cl t ht, strings.FieldsFunc_within cl _ _ t ht⟩⟩

/-- C5: `Update` returns the filtered line, then the append-text behind one
space (nothing when the append-text is empty), then the reuse tokens
` key=value` in reuse-list order, a key that the lookup does not have
contributing nothing. -/
theorem Update_eq_filtered_append_reuse (Flag : List Char → List Char × Bool)
    (cl append : List Char) (remove reuse : List (List Char)) :
    cmdlinefilter.Update Flag cl append remove reuse
      = cmdlinefilter.Remove cl remove ++ (if append ≠ [] then [' '] ++ append else [])
          ++ cmdlinefilter.reuseTokens Flag reuse := by
  unfold cmdlinefilter.Update
  dsimp only
  rw [cmdlinefilter.foldl_reuse]
  by_cases h : append = []
  · simp [h]
  · have : 0 < append.length := List.length_pos.2 h
    simp [h, this]

/-- C6 as stated fails: with append-text `x` and the reuse key `k` present in
the lookup, the result does not end with ` x`. -/
theorem Update_append_not_last :
    ¬ ∀ (Flag : List Char → List Char × Bool) (cl append : List Char)
        (remove reuse : List (List Char)),
        append ≠ [] → ([' '] ++ append) <:+ cmdlinefilter.Update Flag cl append remove reuse := by
  intro h
  have h1 := h (fun _ => ("v".toList, true)) "a".toList "x".toList [] ["k".toList] (by decide)
  revert h1
  decide

/-- C6, amended: with a non-empty append-text, `Update` returns the filtered
line, then the append-text behind one space, then the reuse tokens; the
result ends with the append-text when no reuse key is present in the
lookup. -/
theorem Update_append_precedes_reuse (Flag : List Char → List Char × Bool)
    (cl append : List Char) (remove reuse : List (List Char)) (h : append ≠ []) :
    cmdlinefilter.Update Flag cl append remove reuse
      = cmdlinefilter.Remove cl remove ++ ([' '] ++ append)
          ++ cmdlinefilter.reuseTokens Flag reuse ∧
    ((∀ k ∈ reuse, (Flag k).2 = false) →
      ([' '] ++ append) <:+ cmdlinefilter.Update Flag cl append remove reuse) := by
  have hlen : 0 < append.length := List.length_pos.2 h
  have heq : cmdlinefilter.Update Flag cl append remove reuse
      = cmdlinefilter.Remove cl remove ++ ([' '] ++ append)
          ++ cmdlinefilter.reuseTokens Flag reuse := by
    unfold cmdlinefilter.Update
    dsimp only
    rw [cmdlinefilter.foldl_reuse]
    simp [hlen]
  refine ⟨heq, ?_⟩
  intro habs
  rw [heq, cmdlinefilter.reuseTokens_absent Flag reuse habs, List.append_nil]
  exact List.suffix_append _ _

/-- C6, amended, at `Update("a", "x", [], ["k"])` with `k=v` in the lookup:
the result is `a x k=v`. -/
theorem Update_append_precedes_reuse_witness :
    "x".toList ≠ [] ∧
    cmdlinefilter.Update (fun _ => ("v".toList, true)) "a".toList "x".toList [] ["k".toList]
      = "a x k=v".toList :=
  ⟨by decide, by
    rw [(Update_append_precedes_reuse (fun _ => ("v".toList, true)) "a".toList "x".toList []
      ["k".toList] (by decide)).1]
    decide⟩

/-- C8: when no entry of the removal list contains `-`, `Remove` returns the
single-space join of the tokens whose key, with each `-` replaced by `_`, is
no entry of the list; tokenizing the result gives exactly these tokens; and
every entry is its own canonical form. -/
theorem Remove_underscore_entries (cl : List Char) (fields : List (List Char))
    (h : ∀ f ∈ fields, '-' ∉ f) :
    cmdlinefilter.Remove cl fields
      = strings.Join ((cmdlinefilter.tokens cl).filter
          (fun t => decide (cmdlinefilter.canonical (cmdlinefilter.specKey t) ∉ fields))) [' '] ∧
    cmdlinefilter.tokens (cmdlinefilter.Remove cl fields)
      = (cmdlinefilter.tokens cl).filter
          (fun t => decide (cmdlinefilter.canonical (cmdlinefilter.specKey t) ∉ fields)) ∧
    fields.map cmdlinefilter.canonical = fields := by
  refine ⟨cmdlinefilter.Remove_eq_filter cl fields, cmdlinefilter.tokens_Remove cl fields, ?_⟩
  induction fields with
  | nil => rfl
  | cons f fs ih =>
    rw [List.map_cons, cmdlinefilter.canonical_of_no_dash f (h f (List.mem_cons_self _ _)),
      ih (fun x hx => h x (List.mem_cons_of_mem _ hx))]

/-- C8, at the lines `keep=1 my-flag=1` and `my-flag=1` with the removal list
`[my_flag]`: the results are `keep=1` and the empty line. -/
theorem Remove_underscore_entries_witness :
    (∀ f ∈ ["my_flag".toList], '-' ∉ f) ∧
    cmdlinefilter.Remove "keep=1 my-flag=1".toList ["my_flag".toList] = "keep=1".toList ∧
    cmdlinefilter.Remove "my-flag=1".toList ["my_flag".toList] = [] :=
  ⟨by decide, by
    rw [(Remove_underscore_entries "keep=1 my-flag=1".toList ["my_flag".toList] (by decide)).1]
    decide, by
    rw [(Remove_underscore_entries "my-flag=1".toList ["my_flag".toList] (by decide)).1]
    decide⟩
/-! ## `getBootImage` and `Netboot` -/

namespace pxeboot

theorem quiet_call {W α : Type} (ev : Event) (f : W → α × W) (r : Run W)
    (hev : ev.isResolveOrDispatch = false) (h : Quiet r) : Quiet (call ev f r).2 := by
  intro e he
  simp only [call, List.mem_append, List.mem_singleton] at he
  rcases he with he | rfl
  · exact h e he
  · exact hev

theorem quiet_attemptDHCPLease {W Client Pkt : Type} (C : Collaborators W Client Pkt)
    (iface : Link) (timeout retry : Nat) (r : Run W) (h : Quiet r) :
    Quiet (attemptDHCPLease C iface timeout retry r).2 := by
  have h1 := quiet_call (Event.IfUp iface.Name) (C.IfUp iface.Name) r rfl h
  unfold attemptDHCPLease
  rcases e1 : call (Event.IfUp iface.Name) (C.IfUp iface.Name) r with ⟨res1, r1⟩
  rw [e1] at h1
  cases res1 with
  | some err => exact h1
  | none =>
    simp only
    have h2 := quiet_call (Event.New iface) (C.New iface timeout retry) r1 rfl h1
    rcases e2 : call (Event.New iface) (C.New iface timeout retry) r1 with ⟨res2, r2⟩
    rw [e2] at h2
    cases res2 with
    | error err => exact h2
    | ok client =>
      simp only
      have h3 := quiet_call Event.Request (C.Request client) r2 rfl h2
      rcases e3 : call Event.Request (C.Request client) r2 with ⟨res3, r3⟩
      rw [e3] at h3
      cases res3 with
      | error err => exact h3
      | ok p => exact h3

theorem quiet_leaseStage {W Client Pkt : Type} (C : Collaborators W Client Pkt)
    (iface : Link) (r : Run W) (h : Quiet r) : Quiet (leaseStage C iface r).2 := by
  have h1 := quiet_attemptDHCPLease C iface leaseTimeout 5 r h
  unfold leaseStage
  rcases e1 : attemptDHCPLease C iface leaseTimeout 5 r with ⟨res1, r1⟩
  rw [e1] at h1
  cases res1 with
  | error err => exact h1
  | ok packet =>
    simp only
    have h2 := quiet_call (Event.Configure4 iface) (C.Configure4 iface packet.P) r1 rfl h1
    rcases e2 : call (Event.Configure4 iface) (C.Configure4 iface packet.P) r1 with ⟨res2, r2⟩
    rw [e2] at h2
    cases res2 with
    | some err => exact h2
    | none => exact h2

/-- A loop iteration whose lease stage fails goes on to the next interface. -/
theorem loop_of_lease_failure {W Client Pkt : Type} (C : Collaborators W Client Pkt)
    (flags : Flags) (iface : Link) (ifs : List Link) (r : Run W)
    (hname : iface.Name = "eth0".toList) (hfail : (leaseStage C iface r).1 = true) :
    Netboot.loop C flags (iface :: ifs) r = Netboot.loop C flags ifs (leaseStage C iface r).2 := by
  unfold leaseStage at hfail ⊢
  rw [Netboot.loop]
  simp only [hname, ne_eq, not_true_eq_false, if_false]
  rcases e1 : attemptDHCPLease C iface leaseTimeout 5 r with ⟨res1, r1⟩
  rw [e1] at hfail
  cases res1 with
  | error err => rfl
  | ok packet =>
    simp only at hfail ⊢
    rcases e2 : call (Event.Configure4 iface) (C.Configure4 iface packet.P) r1 with ⟨res2, r2⟩
    rw [e2] at hfail
    cases res2 with
    | some err => rfl
    | none => simp at hfail

theorem loop_every_lease_fails {W Client Pkt : Type} (C : Collaborators W Client Pkt)
    (flags : Flags) (ifs : List Link) :
    ∀ r : Run W, everyLeaseFails C ifs r = true → Quiet r →
      (Netboot.loop C flags ifs r).1 = Outcome.returned none ∧
        Quiet (Netboot.loop C flags ifs r).2 := by
  induction ifs with
  | nil =>
    intro r _ hq
    exact ⟨by simp [Netboot.loop], by simpa [Netboot.loop] using hq⟩
  | cons iface ifs ih =>
    intro r h hq
    by_cases hname : iface.Name = "eth0".toList
    · simp only [everyLeaseFails, hname, ne_eq, not_true_eq_false, if_false,
        Bool.and_eq_true] at h
      rw [loop_of_lease_failure C flags iface ifs r hname h.1]
      exact ih _ h.2 (quiet_leaseStage C iface r hq)
    · simp only [everyLeaseFails, hname, ne_eq, not_false_eq_true, if_true] at h
      rw [Netboot.loop]
      simp only [hname, ne_eq, not_false_eq_true, if_true]
      exact ih r h hq

end pxeboot
namespace pxeboot

theorem getBootImage_of_ipxe_ok {W Client Pkt : Type} (C : Collaborators W Client Pkt)
    (uri : URL) (mac ip : List Nat) (r : Run W) (ipc : IpxeConfig) (w1 : W)
    (h : C.ipxeNewConfig uri r.world = (Except.ok ipc, w1)) :
    getBootImage C uri mac ip r
      = ((ipc.BootImage, none),
          ⟨w1, r.trace ++ [Event.getBootImage uri mac ip, Event.ipxeNewConfig uri]⟩) := by
  unfold getBootImage
  simp only [call, mark, h, List.append_assoc, List.singleton_append]

/-- A loop iteration in which `getBootImage` returns an error ends `Netboot`
with that error. -/
theorem loop_of_resolve_failure {W Client Pkt : Type} (C : Collaborators W Client Pkt)
    (flags : Flags) (iface : Link) (ifs : List Link) (r r1 r2 r3 : Run W)
    (packet : Packet4 Pkt) (uri : URL) (img : Option LinuxImage) (err : Error)
    (hname : iface.Name = "eth0".toList)
    (hlease : attemptDHCPLease C iface leaseTimeout 5 r = (Except.ok packet, r1))
    (hconf : call (Event.Configure4 iface) (C.Configure4 iface packet.P) r1 = (none, r2))
    (hboot : C.Boot packet.P = Except.ok uri)
    (hget : getBootImage C uri iface.HardwareAddr (C.LeaseIP packet.P) r2
      = ((img, some err), r3)) :
    Netboot.loop C flags (iface :: ifs) r = (Outcome.returned (some err), r3) := by
  rw [Netboot.loop]
  simp only [hname, ne_eq, not_true_eq_false, if_false, hlease, hconf, hboot, hget]

/-- An error that the loop of `Netboot` returns is the error that
`getBootImage` returned for a candidate interface, and the loop ended in the
state that call left. -/
theorem loop_error_from_getBootImage {W Client Pkt : Type} (C : Collaborators W Client Pkt)
    (flags : Flags) (err : Error) (ifs : List Link) :
    ∀ (r : Run W) (res : Outcome × Run W), Netboot.loop C flags ifs r = res →
      res.1 = Outcome.returned (some err) →
      ∃ iface ∈ ifs, iface.Name = "eth0".toList ∧
        ∃ (packet : Packet4 Pkt) (uri : URL) (r2 r3 : Run W) (img : Option LinuxImage),
          C.Boot packet.P = Except.ok uri ∧
          getBootImage C uri iface.HardwareAddr (C.LeaseIP packet.P) r2
            = ((img, some err), r3) ∧
          res = (Outcome.returned (some err), r3) := by
  induction ifs with
  | nil =>
    intro r res hres h
    rw [Netboot.loop] at hres
    subst hres
    simp at h
  | cons iface ifs ih =>
    intro r res hres h
    have later : ∀ r1 : Run W, Netboot.loop C flags ifs r1 = res →
        ∃ iface1 ∈ iface :: ifs, iface1.Name = "eth0".toList ∧
          ∃ (packet : Packet4 Pkt) (uri : URL) (r2 r3 : Run W) (img : Option LinuxImage),
            C.Boot packet.P = Except.ok uri ∧
            getBootImage C uri iface1.HardwareAddr (C.LeaseIP packet.P) r2
              = ((img, some err), r3) ∧
            res = (Outcome.returned (some err), r3) := by
      intro r1 h1
      obtain ⟨i, hi, hrest⟩ := ih r1 res h1 h
      exact ⟨i, List.mem_cons_of_mem _ hi, hrest⟩
    rw [Netboot.loop] at hres
    by_cases hname : iface.Name = "eth0".toList
    · simp only [hname, ne_eq, not_true_eq_false, if_false] at hres
      rcases e1 : attemptDHCPLease C iface leaseTimeout 5 r with ⟨res1, r1⟩
      rw [e1] at hres
      cases res1 with
      | error e => exact later r1 hres
      | ok packet =>
        simp only at hres
        rcases e2 : call (Event.Configure4 iface) (C.Configure4 iface packet.P) r1
          with ⟨res2, r2⟩
        rw [e2] at hres
        cases res2 with
        | some e => exact later r2 hres
        | none =>
          simp only at hres
          cases e3 : C.Boot packet.P with
          | error e =>
            rw [e3] at hres
            exact later r2 hres
          | ok uri =>
            rw [e3] at hres
            simp only at hres
            rcases e4 : getBootImage C uri iface.HardwareAddr (C.LeaseIP packet.P) r2
              with ⟨⟨img, gerr⟩, r3⟩
            rw [e4] at hres
            cases gerr with
            | some e =>
              simp only at hres
              subst hres
              simp only [Outcome.returned.injEq, Option.some.injEq] at h
              subst h
              exact ⟨iface, List.mem_cons_self _ _, hname, packet, uri, r2, r3, img, e3, e4, rfl⟩
            | none =>
              cases img with
              | none =>
                simp only at hres
                subst hres
                simp at h
              | some im =>
                simp only at hres
                by_cases hdry : flags.dryRun = true
                · simp only [hdry, if_true] at hres
                  exact later _ hres
                · simp only [hdry, Bool.false_eq_true, if_false] at hres
                  exact later _ hres
    · simp only [hname, ne_eq, not_false_eq_true, if_true] at hres
      exact later r hres

end pxeboot

/-- C7 as stated fails: in the sample environment with two interfaces named
`eth0`, enumeration succeeds, the lease succeeds, both the ipxe probe and the
pxe search fail; `Netboot` returns the error of `getBootImage`, and the second
interface is never attempted (`dhclient.IfUp` is called once). -/
theorem Netboot_resolve_failure_is_fatal :
    ((pxeboot.sampleEnv [pxeboot.eth0, pxeboot.eth0] true false false).LinkList 0).1.toOption
      = some [pxeboot.eth0, pxeboot.eth0] ∧
    (pxeboot.Netboot (pxeboot.sampleEnv [pxeboot.eth0, pxeboot.eth0] true false false)
        pxeboot.defaultFlags 0).1
      = pxeboot.Outcome.returned
          (some "failed to parse pxelinux config: no config found".toList) ∧
    (pxeboot.Netboot (pxeboot.sampleEnv [pxeboot.eth0, pxeboot.eth0] true false false)
        pxeboot.defaultFlags 0).2.trace.count (pxeboot.Event.IfUp "eth0".toList) = 1 := by
  refine ⟨rfl, ?_, ?_⟩ <;> decide

/-- C7, amended: a resolve failure is fatal to the run.  When, for a candidate
interface, the lease is obtained and applied, the lease carries a boot
location and `getBootImage` returns an error, `Netboot` returns that error at
once, whatever interfaces remain; and an error returned by `Netboot` is the
error of the interface enumeration, or the error `getBootImage` returned for
a candidate interface, the run having ended in the state that call left. -/
theorem Netboot_error_sources {W Client Pkt : Type} (C : pxeboot.Collaborators W Client Pkt)
    (flags : pxeboot.Flags) :
    (∀ (iface : pxeboot.Link) (ifs : List pxeboot.Link) (r r1 r2 r3 : pxeboot.Run W)
        (packet : pxeboot.Packet4 Pkt) (uri : pxeboot.URL) (img : Option pxeboot.LinuxImage)
        (err : pxeboot.Error),
      iface.Name = "eth0".toList →
      pxeboot.attemptDHCPLease C iface pxeboot.leaseTimeout 5 r = (Except.ok packet, r1) →
      pxeboot.call (pxeboot.Event.Configure4 iface) (C.Configure4 iface packet.P) r1
        = (none, r2) →
      C.Boot packet.P = Except.ok uri →
      pxeboot.getBootImage C uri iface.HardwareAddr (C.LeaseIP packet.P) r2
        = ((img, some err), r3) →
      pxeboot.Netboot.loop C flags (iface :: ifs) r
        = (pxeboot.Outcome.returned (some err), r3)) ∧
    (∀ (w : W) (err : pxeboot.Error),
      (pxeboot.Netboot C flags w).1 = pxeboot.Outcome.returned (some err) →
      (∃ w1, C.LinkList w = (Except.error err, w1)) ∨
      ∃ (ifs : List pxeboot.Link) (w1 : W), C.LinkList w = (Except.ok ifs, w1) ∧
        ∃ iface ∈ ifs, iface.Name = "eth0".toList ∧
          ∃ (packet : pxeboot.Packet4 Pkt) (uri : pxeboot.URL) (r2 r3 : pxeboot.Run W)
            (img : Option pxeboot.LinuxImage),
            C.Boot packet.P = Except.ok uri ∧
            pxeboot.getBootImage C uri iface.HardwareAddr (C.LeaseIP packet.P) r2
              = ((img, some err), r3) ∧
            pxeboot.Netboot C flags w = (pxeboot.Outcome.returned (some err), r3)) := by
  constructor
  · intro iface ifs r r1 r2 r3 packet uri img err hname hlease hconf hboot hget
    exact pxeboot.loop_of_resolve_failure C flags iface ifs r r1 r2 r3 packet uri img err
      hname hlease hconf hboot hget
  · intro w err h
    rcases e : C.LinkList w with ⟨res, w1⟩
    have hN : pxeboot.Netboot C flags w
        = match res with
          | Except.error err0 =>
            (pxeboot.Outcome.returned (some err0), ⟨w1, [pxeboot.Event.LinkList]⟩)
          | Except.ok ifs => pxeboot.Netboot.loop C flags ifs ⟨w1, [pxeboot.Event.LinkList]⟩ := by
      unfold pxeboot.Netboot
      simp only [pxeboot.call, e, List.nil_append]
      cases res <;> rfl
    cases res with
    | error e0 =>
      rw [hN] at h
      simp only [pxeboot.Outcome.returned.injEq, Option.some.injEq] at h
      subst h
      exact Or.inl ⟨w1, rfl⟩
    | ok ifs =>
      simp only at hN
      rw [hN] at h ⊢
      exact Or.inr ⟨ifs, w1, rfl,
        pxeboot.loop_error_from_getBootImage C flags err ifs _ _ rfl h⟩

/-- C7, amended, in the sample environment: the loop over two interfaces named
`eth0` returns the error of `getBootImage` for the first one, in the state
that call left. -/
theorem Netboot_error_sources_witness :
    pxeboot.eth0.Name = "eth0".toList ∧
    pxeboot.attemptDHCPLease (pxeboot.sampleEnv [pxeboot.eth0, pxeboot.eth0] true false false)
        pxeboot.eth0 pxeboot.leaseTimeout 5 ⟨0, []⟩
      = (Except.ok ⟨()⟩,
          ⟨3, [pxeboot.Event.IfUp "eth0".toList, pxeboot.Event.New pxeboot.eth0,
            pxeboot.Event.Request]⟩) ∧
    pxeboot.Netboot.loop (pxeboot.sampleEnv [pxeboot.eth0, pxeboot.eth0] true false false)
        pxeboot.defaultFlags [pxeboot.eth0, pxeboot.eth0] ⟨0, []⟩
      = (pxeboot.Outcome.returned
          (some "failed to parse pxelinux config: no config found".toList),
        (pxeboot.getBootImage (pxeboot.sampleEnv [pxeboot.eth0, pxeboot.eth0] true false false)
          ⟨"tftp".toList, "10.0.0.1".toList, "/boot/pxelinux.0".toList, [], []⟩
          [0, 1, 2, 3, 4, 5] [10, 0, 0, 2]
          ⟨4, [pxeboot.Event.IfUp "eth0".toList, pxeboot.Event.New pxeboot.eth0,
            pxeboot.Event.Request, pxeboot.Event.Configure4 pxeboot.eth0]⟩).2) :=
  ⟨rfl, rfl,
    (Netboot_error_sources (pxeboot.sampleEnv [pxeboot.eth0, pxeboot.eth0] true false false)
      pxeboot.defaultFlags).1 pxeboot.eth0 [pxeboot.eth0] ⟨0, []⟩
      ⟨3, [pxeboot.Event.IfUp "eth0".toList, pxeboot.Event.New pxeboot.eth0,
        pxeboot.Event.Request]⟩
      ⟨4, [pxeboot.Event.IfUp "eth0".toList, pxeboot.Event.New pxeboot.eth0,
        pxeboot.Event.Request, pxeboot.Event.Configure4 pxeboot.eth0]⟩
      _ ⟨()⟩ ⟨"tftp".toList, "10.0.0.1".toList, "/boot/pxelinux.0".toList, [], []⟩ none
      "failed to parse pxelinux config: no config found".toList rfl rfl rfl rfl rfl⟩

/-- C9: a lease-stage failure never dispatches and never fails the run.  When
the enumeration succeeds and, for each candidate interface of the run,
bringing the interface up, creating the DHCP client, the DHCP request or
applying the configuration fails, `Netboot` returns nil and the run contains
no call of `getBootImage`, of the ipxe or pxe packages, of `Execute` or of
`ExecutionInfo`. -/
theorem Netboot_lease_failure_no_dispatch {W Client Pkt : Type}
    (C : pxeboot.Collaborators W Client Pkt) (flags : pxeboot.Flags) (w w1 : W)
    (ifs : List pxeboot.Link) (henum : C.LinkList w = (Except.ok ifs, w1))
    (hfail : pxeboot.everyLeaseFails C ifs ⟨w1, [pxeboot.Event.LinkList]⟩ = true) :
    (pxeboot.Netboot C flags w).1 = pxeboot.Outcome.returned none ∧
    ∀ ev ∈ (pxeboot.Netboot C flags w).2.trace, ev.isResolveOrDispatch = false := by
  have hq : pxeboot.Quiet (⟨w1, [pxeboot.Event.LinkList]⟩ : pxeboot.Run W) := by
    intro ev hev
    simp only [List.mem_singleton] at hev
    subst hev
    rfl
  have h := pxeboot.loop_every_lease_fails C flags ifs _ hfail hq
  unfold pxeboot.Netboot
  simp only [pxeboot.call, henum, List.nil_append]
  exact h

/-- C9, in the sample environment with one interface `eth0` whose DHCP request
fails: `Netboot` returns nil after the calls `LinkList`, `IfUp`, `New` and
`Request`. -/
theorem Netboot_lease_failure_no_dispatch_witness :
    (pxeboot.sampleEnv [pxeboot.eth0] false true true).LinkList 0
      = (Except.ok [pxeboot.eth0], 1) ∧
    pxeboot.everyLeaseFails (pxeboot.sampleEnv [pxeboot.eth0] false true true) [pxeboot.eth0]
      ⟨1, [pxeboot.Event.LinkList]⟩ = true ∧
    (pxeboot.Netboot (pxeboot.sampleEnv [pxeboot.eth0] false true true)
      pxeboot.defaultFlags 0).1 = pxeboot.Outcome.returned none ∧
    ∀ ev ∈ (pxeboot.Netboot (pxeboot.sampleEnv [pxeboot.eth0] false true true)
      pxeboot.defaultFlags 0).2.trace, ev.isResolveOrDispatch = false :=
  ⟨rfl, by decide,
    Netboot_lease_failure_no_dispatch (pxeboot.sampleEnv [pxeboot.eth0] false true true)
      pxeboot.defaultFlags 0 1 [pxeboot.eth0] rfl (by decide)⟩

/-- C10: first-format success short-circuits the fallback.  When
`ipxe.NewConfig(uri)` succeeds, `getBootImage` returns the `BootImage` of that
configuration and a nil error; the only calls it adds to the run are its own
entry and `ipxe.NewConfig`, so `pxe.NewConfig` and `FindConfigFile` are not
called, and the world is the one `ipxe.NewConfig` left. -/
theorem getBootImage_ipxe_short_circuit {W Client Pkt : Type}
    (C : pxeboot.Collaborators W Client Pkt) (uri : pxeboot.URL) (mac ip : List Nat)
    (r : pxeboot.Run W) (ipc : pxeboot.IpxeConfig) (w1 : W)
    (h : C.ipxeNewConfig uri r.world = (Except.ok ipc, w1)) :
    pxeboot.getBootImage C uri mac ip r
      = ((ipc.BootImage, none),
          ⟨w1, r.trace ++ [pxeboot.Event.getBootImage uri mac ip,
            pxeboot.Event.ipxeNewConfig uri]⟩) :=
  pxeboot.getBootImage_of_ipxe_ok C uri mac ip r ipc w1 h

/-- C10, in the sample environment whose ipxe probe succeeds: `getBootImage`
returns the sample image and no error after two recorded calls. -/
theorem getBootImage_ipxe_short_circuit_witness :
    (pxeboot.sampleEnv [pxeboot.eth0] true true true).ipxeNewConfig
        ⟨"tftp".toList, "10.0.0.1".toList, "/boot/script.ipxe".toList, [], []⟩ 0
      = (Except.ok ⟨some pxeboot.sampleImage⟩, 1) ∧
    pxeboot.getBootImage (pxeboot.sampleEnv [pxeboot.eth0] true true true)
        ⟨"tftp".toList, "10.0.0.1".toList, "/boot/script.ipxe".toList, [], []⟩
        [0, 1, 2, 3, 4, 5] [10, 0, 0, 2] ⟨0, []⟩
      = ((some pxeboot.sampleImage, none),
          ⟨1, [pxeboot.Event.getBootImage
              ⟨"tftp".toList, "10.0.0.1".toList, "/boot/script.ipxe".toList, [], []⟩
              [0, 1, 2, 3, 4, 5] [10, 0, 0, 2],
            pxeboot.Event.ipxeNewConfig
              ⟨"tftp".toList, "10.0.0.1".toList, "/boot/script.ipxe".toList, [], []⟩]⟩) :=
  ⟨rfl,
    getBootImage_ipxe_short_circuit (pxeboot.sampleEnv [pxeboot.eth0] true true true)
      ⟨"tftp".toList, "10.0.0.1".toList, "/boot/script.ipxe".toList, [], []⟩
      [0, 1, 2, 3, 4, 5] [10, 0, 0, 2] ⟨0, []⟩ ⟨some pxeboot.sampleImage⟩ 1 rfl⟩

/-! ## More on the tokenizer and the two copies of the filter -/

namespace strings

/-- The spans of a line `p mid r` in which `mid` is scanned without a
separator: those recorded before `mid`, then the scan of `r` with a field open
that started at or before the start of `mid`. -/
theorem spans_unsplit {σ : Type} (f : σ → Char → Bool × σ) (s0 : σ) (p mid r : List Char)
    (hne : mid ≠ []) (h : noSplit f (stateAfter f s0 p) mid = true) :
    ∃ (a : Nat) (a1 : List Span), a ≤ p.length ∧
      FieldsFunc.spans (p ++ mid ++ r) f s0
        = a1 ++ FieldsFunc.loop f (stateAfter f (stateAfter f s0 p) mid) (some a)
            (p.length + mid.length) r [] := by
  obtain ⟨s1, a1, h1, h2⟩ := loop_scan_initial f p s0 none 0 [] (by simp)
  cases mid with
  | nil => exact absurd rfl hne
  | cons c mid =>
    simp only [noSplit, Bool.and_eq_true, Bool.not_eq_true'] at h
    have hl : p.length + (c :: mid).length = p.length + 1 + mid.length := by
      simp only [List.length_cons]; omega
    have hstep : ∀ a, s1.getD p.length = a →
        FieldsFunc.spans (p ++ (c :: mid) ++ r) f s0
          = a1 ++ FieldsFunc.loop f (stateAfter f (stateAfter f s0 p) (c :: mid)) (some a)
              (p.length + (c :: mid).length) r [] := by
      intro a hadef
      unfold FieldsFunc.spans
      rw [List.append_assoc, h2, List.cons_append]
      simp only [Nat.zero_add]
      cases s1 with
      | none =>
        simp only [Option.getD] at hadef
        subst hadef
        simp only [FieldsFunc.loop, h.1, Bool.false_eq_true, if_false, stateAfter]
        rw [loop_noSplit f mid r _ _ _ _ h.2, loop_acc, hl]
      | some s =>
        simp only [Option.getD] at hadef
        subst hadef
        simp only [FieldsFunc.loop, h.1, Bool.false_eq_true, if_false, stateAfter]
        rw [loop_noSplit f mid r _ _ _ _ h.2, loop_acc, hl]
    cases hs : s1 with
    | none => exact ⟨p.length, a1, le_refl _, hstep _ (by simp [hs])⟩
    | some s =>
      refine ⟨s, a1, ?_, hstep _ (by simp [hs])⟩
      have := h1 s hs
      simpa using this

/-- When the line ends inside a stretch scanned without a separator, that
stretch belongs to the last span, which ends at the end of the line. -/
theorem spans_unsplit_tail {σ : Type} (f : σ → Char → Bool × σ) (s0 : σ) (p mid : List Char)
    (hne : mid ≠ []) (h : noSplit f (stateAfter f s0 p) mid = true) :
    ∃ (a : Nat) (a1 : List Span), a ≤ p.length ∧
      FieldsFunc.spans (p ++ mid) f s0 = a1 ++ [Span.mk a (p ++ mid).length] := by
  obtain ⟨a, a1, ha, hsp⟩ := spans_unsplit f s0 p mid [] hne h
  refine ⟨a, a1, ha, ?_⟩
  rw [List.append_nil] at hsp
  rw [hsp]
  simp [FieldsFunc.loop]

theorem Join_append_singleton (sep last : List Char) :
    ∀ init : List (List Char), last <:+ Join (init ++ [last]) sep := by
  intro init
  induction init with
  | nil => simp [Join]
  | cons t ts ih =>
    cases ts with
    | nil =>
      simp only [List.cons_append, List.nil_append, Join]
      exact List.suffix_append _ _
    | cons t' ts =>
      simp only [List.cons_append, Join] at ih ⊢
      exact ih.trans (List.suffix_append _ _)

end strings

namespace pxeboot

theorem skipLoop_eq_filter_skipLoop (k : List Char) (fields : List (List Char)) :
    skipLoop k fields = cmdlinefilter.skipLoop k fields := by
  induction fields with
  | nil => rfl
  | cons f fs ih => simp [skipLoop, cmdlinefilter.skipLoop, ih]

theorem removeStep_eq_filter_removeStep (fields newCl : List (List Char)) (flag : List Char) :
    removeStep fields newCl flag = cmdlinefilter.removeStep fields newCl flag := by
  unfold removeStep cmdlinefilter.removeStep
  simp only [skipLoop_eq_filter_skipLoop]
  rfl

/-- The inline filter of `pxeboot` computes what the packaged one does. -/
theorem removeFromCmdline_eq_Remove (cl : List Char) (fields : List (List Char)) :
    removeFromCmdline cl fields = cmdlinefilter.Remove cl fields := by
  unfold removeFromCmdline cmdlinefilter.Remove
  have hstep : removeStep (canonicalizeLoop fields)
      = cmdlinefilter.removeStep (cmdlinefilter.canonicalizeLoop fields) := by
    funext newCl flag
    exact removeStep_eq_filter_removeStep _ newCl flag
  simp only [hstep]
  rfl

/-- The inline merge of `pxeboot` computes what the packaged one does on the
split flag values. -/
theorem updateBootCmdline_eq_Update (Flag : List Char → List Char × Bool) (flags : Flags)
    (cl : List Char) :
    updateBootCmdline Flag flags cl
      = cmdlinefilter.Update Flag cl flags.appendCmdline
          (strings.Split flags.removeCmdlineItem ',')
          (strings.Split flags.reuseCmdlineItem ',') := by
  unfold updateBootCmdline cmdlinefilter.Update
  simp only [removeFromCmdline_eq_Remove]

end pxeboot

namespace cmdlinefilter

theorem Update_eq (Flag : List Char → List Char × Bool)
    (cl append : List Char) (remove reuse : List (List Char)) :
    Update Flag cl append remove reuse
      = Remove cl remove ++ (if append ≠ [] then [' '] ++ append else [])
          ++ reuseTokens Flag reuse := by
  unfold Update
  dsimp only
  rw [foldl_reuse]
  by_cases h : append = []
  · simp [h]
  · have : 0 < append.length := List.length_pos.2 h
    simp [h, this]

/-- Two removals in a row are one removal with both lists. -/
theorem Remove_Remove (s : List Char) (F G : List (List Char)) :
    Remove (Remove s F) G = Remove s (F ++ G) := by
  rw [Remove_eq_filter (Remove s F) G, tokens_Remove, List.filter_filter, Remove_eq_filter]
  congr 1
  apply List.filter_congr
  intro t _
  simp only [List.mem_append, not_or, Bool.decide_and, Bool.and_comm]

theorem Remove_append_comm (s : List Char) (F G : List (List Char)) :
    Remove s (F ++ G) = Remove s (G ++ F) := by
  rw [Remove_eq_filter, Remove_eq_filter]
  congr 1
  apply List.filter_congr
  intro t _
  simp only [List.mem_append, not_or, Bool.decide_and, Bool.and_comm]

theorem tokens_getLast (p mid : List Char) (hne : mid ≠ [])
    (h : strings.noSplit quotedFieldsCheck
      (strings.stateAfter quotedFieldsCheck (Char.ofNat 0) p) mid = true) :
    ∃ (a : Nat) (a1 : List strings.Span), a ≤ p.length ∧
      strings.FieldsFunc.spans (p ++ mid) quotedFieldsCheck (Char.ofNat 0)
        = a1 ++ [strings.Span.mk a (p ++ mid).length] ∧
      tokens (p ++ mid)
        = a1.map (fun sp => strings.slice (p ++ mid) sp.start sp.stop) ++ [p.drop a ++ mid] := by
  obtain ⟨a, a1, ha, hsp⟩ :=
    strings.spans_unsplit_tail quotedFieldsCheck (Char.ofNat 0) p mid hne h
  refine ⟨a, a1, ha, hsp, ?_⟩
  unfold tokens strings.FieldsFunc
  rw [hsp, List.map_append]
  congr 1
  simp only [List.map_cons, List.map_nil, strings.slice, List.take_length]
  rw [List.drop_append_of_le_length ha]

end cmdlinefilter

/-! ## The calls of a run, and the dispatch step -/

namespace pxeboot

theorem Extends.refl {W : Type} (P : Event → Prop) (r : Run W) : Extends P r r :=
  ⟨[], by simp, by simp⟩

theorem Extends.trans {W : Type} {P : Event → Prop} {r r1 r2 : Run W}
    (h1 : Extends P r r1) (h2 : Extends P r1 r2) : Extends P r r2 := by
  obtain ⟨e1, ht1, hp1⟩ := h1
  obtain ⟨e2, ht2, hp2⟩ := h2
  refine ⟨e1 ++ e2, by rw [ht2, ht1, List.append_assoc], ?_⟩
  intro ev hev
  rcases List.mem_append.1 hev with h | h
  · exact hp1 ev h
  · exact hp2 ev h

theorem Extends.mono {W : Type} {P Q : Event → Prop} {r r1 : Run W}
    (h : Extends P r r1) (hPQ : ∀ ev, P ev → Q ev) : Extends Q r r1 := by
  obtain ⟨e1, ht1, hp1⟩ := h
  exact ⟨e1, ht1, fun ev hev => hPQ ev (hp1 ev hev)⟩

theorem extends_call {W α : Type} (P : Event → Prop) (ev : Event) (f : W → α × W) (r : Run W)
    (h : P ev) : Extends P r (call ev f r).2 :=
  ⟨[ev], rfl, by intro e he; rw [List.mem_singleton.1 he]; exact h⟩

theorem extends_mark {W : Type} (P : Event → Prop) (ev : Event) (r : Run W)
    (h : P ev) : Extends P r (mark ev r) :=
  ⟨[ev], rfl, by intro e he; rw [List.mem_singleton.1 he]; exact h⟩

theorem extends_attemptDHCPLease {W Client Pkt : Type} (C : Collaborators W Client Pkt)
    (iface : Link) (timeout retry : Nat) (r : Run W) (P : Event → Prop)
    (h1 : P (Event.IfUp iface.Name)) (h2 : P (Event.New iface)) (h3 : P Event.Request) :
    Extends P r (attemptDHCPLease C iface timeout retry r).2 := by
  have e1 := extends_call P (Event.IfUp iface.Name) (C.IfUp iface.Name) r h1
  unfold attemptDHCPLease
  rcases q1 : call (Event.IfUp iface.Name) (C.IfUp iface.Name) r with ⟨res1, r1⟩
  rw [q1] at e1
  cases res1 with
  | some err => exact e1
  | none =>
    simp only
    have e2 := extends_call P (Event.New iface) (C.New iface timeout retry) r1 h2
    rcases q2 : call (Event.New iface) (C.New iface timeout retry) r1 with ⟨res2, r2⟩
    rw [q2] at e2
    cases res2 with
    | error err => exact e1.trans e2
    | ok client =>
      simp only
      have e3 := extends_call P Event.Request (C.Request client) r2 h3
      rcases q3 : call Event.Request (C.Request client) r2 with ⟨res3, r3⟩
      rw [q3] at e3
      cases res3 with
      | error err => exact (e1.trans e2).trans e3
      | ok p => exact (e1.trans e2).trans e3

/-- What `getBootImage` does when the ipxe probe fails: it builds the location
`wd`, calls `pxe.NewConfig(wd)` and `FindConfigFile(mac, ip)` once each, and
returns the wrapped error of the search or the entry `Entries[DefaultEntry]`. -/
theorem getBootImage_of_ipxe_error {W Client Pkt : Type} (C : Collaborators W Client Pkt)
    (uri : URL) (mac ip : List Nat) (r : Run W) (e : Error) (w1 : W)
    (h : C.ipxeNewConfig uri r.world = (Except.error e, w1)) :
    getBootImage C uri mac ip r
      = ((match (C.FindConfigFile ⟨uri.Scheme, uri.Host, C.Dir uri.Path, [], []⟩ mac ip w1).1 with
          | Except.error err =>
            (none, some ("failed to parse pxelinux config: ".toList ++ err))
          | Except.ok pc => (pc.Entries pc.DefaultEntry, none)),
        ⟨(C.FindConfigFile ⟨uri.Scheme, uri.Host, C.Dir uri.Path, [], []⟩ mac ip w1).2,
          r.trace ++ [Event.getBootImage uri mac ip, Event.ipxeNewConfig uri,
            Event.pxeNewConfig ⟨uri.Scheme, uri.Host, C.Dir uri.Path, [], []⟩,
            Event.FindConfigFile ⟨uri.Scheme, uri.Host, C.Dir uri.Path, [], []⟩ mac ip]⟩) := by
  unfold getBootImage
  simp only [call, mark, h, List.append_assoc, List.singleton_append]
  cases (C.FindConfigFile ⟨uri.Scheme, uri.Host, C.Dir uri.Path, [], []⟩ mac ip w1).1 <;> rfl

theorem extends_getBootImage {W Client Pkt : Type} (C : Collaborators W Client Pkt)
    (uri : URL) (mac ip : List Nat) (r : Run W) (P : Event → Prop)
    (h1 : P (Event.getBootImage uri mac ip)) (h2 : P (Event.ipxeNewConfig uri))
    (h3 : ∀ wd, P (Event.pxeNewConfig wd)) (h4 : ∀ wd, P (Event.FindConfigFile wd mac ip)) :
    Extends P r (getBootImage C uri mac ip r).2 := by
  rcases q : C.ipxeNewConfig uri r.world with ⟨res, w1⟩
  cases res with
  | ok ipc =>
    rw [getBootImage_of_ipxe_ok C uri mac ip r ipc w1 q]
    refine ⟨_, rfl, ?_⟩
    intro ev hev
    simp only [List.mem_cons, List.mem_singleton, List.not_mem_nil, or_false] at hev
    rcases hev with rfl | rfl
    · exact h1
    · exact h2
  | error e =>
    rw [getBootImage_of_ipxe_error C uri mac ip r e w1 q]
    refine ⟨_, rfl, ?_⟩
    intro ev hev
    simp only [List.mem_cons, List.mem_singleton, List.not_mem_nil, or_false] at hev
    rcases hev with rfl | rfl | rfl | rfl
    · exact h1
    · exact h2
    · exact h3 _
    · exact h4 _

theorem extends_dispatch {W Client Pkt : Type} (C : Collaborators W Client Pkt)
    (flags : Flags) (img : LinuxImage) (r : Run W) (P : Event → Prop)
    (h1 : flags.dryRun = true → P (Event.ExecutionInfo img))
    (h2 : flags.dryRun = false → P (Event.Execute img)) :
    Extends P r (dispatch C flags img r) := by
  unfold dispatch
  by_cases hd : flags.dryRun = true
  · simp only [hd, if_true]
    exact ⟨[_], rfl, by intro e he; rw [List.mem_singleton.1 he]; exact h1 hd⟩
  · have hd2 : flags.dryRun = false := by simpa using hd
    simp only [hd2, Bool.false_eq_true, if_false]
    exact ⟨[_], rfl, by intro e he; rw [List.mem_singleton.1 he]; exact h2 hd2⟩

/-- A loop iteration in which `getBootImage` returns an image and no error
hands the image with the merged command line to dispatch and goes on to the
next interface. -/
theorem loop_of_resolve_success {W Client Pkt : Type} (C : Collaborators W Client Pkt)
    (flags : Flags) (iface : Link) (ifs : List Link) (r r1 r2 r3 : Run W)
    (packet : Packet4 Pkt) (uri : URL) (img : LinuxImage)
    (hname : iface.Name = "eth0".toList)
    (hlease : attemptDHCPLease C iface leaseTimeout 5 r = (Except.ok packet, r1))
    (hconf : call (Event.Configure4 iface) (C.Configure4 iface packet.P) r1 = (none, r2))
    (hboot : C.Boot packet.P = Except.ok uri)
    (hget : getBootImage C uri iface.HardwareAddr (C.LeaseIP packet.P) r2
      = ((some img, none), r3)) :
    Netboot.loop C flags (iface :: ifs) r
      = Netboot.loop C flags ifs (dispatch C flags (merged C.Flag flags img) r3) := by
  rw [Netboot.loop]
  simp only [hname, ne_eq, not_true_eq_false, if_false, hlease, hconf, hboot, hget]
  unfold dispatch merged call
  by_cases hd : flags.dryRun = true
  · simp only [hd, if_true]
  · simp only [hd, Bool.false_eq_true, if_false]

/-- A loop iteration in which `getBootImage` returns a nil image and a nil
error panics at `img.Cmdline`. -/
theorem loop_of_resolve_nil {W Client Pkt : Type} (C : Collaborators W Client Pkt)
    (flags : Flags) (iface : Link) (ifs : List Link) (r r1 r2 r3 : Run W)
    (packet : Packet4 Pkt) (uri : URL)
    (hname : iface.Name = "eth0".toList)
    (hlease : attemptDHCPLease C iface leaseTimeout 5 r = (Except.ok packet, r1))
    (hconf : call (Event.Configure4 iface) (C.Configure4 iface packet.P) r1 = (none, r2))
    (hboot : C.Boot packet.P = Except.ok uri)
    (hget : getBootImage C uri iface.HardwareAddr (C.LeaseIP packet.P) r2
      = ((none, none), r3)) :
    Netboot.loop C flags (iface :: ifs) r = (Outcome.panicked, r3) := by
  rw [Netboot.loop]
  simp only [hname, ne_eq, not_true_eq_false, if_false, hlease, hconf, hboot, hget]

theorem fromLoop_mono (flags : Flags) (iface : Link) (ifs : List Link) (ev : Event)
    (h : Event.fromLoop flags ifs ev) : Event.fromLoop flags (iface :: ifs) ev := by
  cases ev with
  | LinkList => exact h
  | IfUp name => exact h
  | New i => exact ⟨List.mem_cons_of_mem _ h.1, h.2⟩
  | Request => exact h
  | Configure4 i => exact ⟨List.mem_cons_of_mem _ h.1, h.2⟩
  | getBootImage uri mac ip =>
    obtain ⟨i, hi, hrest⟩ := h
    exact ⟨i, List.mem_cons_of_mem _ hi, hrest⟩
  | ipxeNewConfig uri => exact h
  | pxeNewConfig wd => exact h
  | FindConfigFile wd mac ip =>
    obtain ⟨i, hi, hrest⟩ := h
    exact ⟨i, List.mem_cons_of_mem _ hi, hrest⟩
  | ExecutionInfo img => exact h
  | Execute img => exact h

/-- The calls that the loop of `Netboot` adds to the run. -/
theorem loop_extends {W Client Pkt : Type} (C : Collaborators W Client Pkt)
    (flags : Flags) (ifs : List Link) :
    ∀ r : Run W, Extends (Event.fromLoop flags ifs) r (Netboot.loop C flags ifs r).2 := by
  induction ifs with
  | nil =>
    intro r
    rw [Netboot.loop]
    exact Extends.refl _ r
  | cons iface ifs ih =>
    intro r
    have later : ∀ r1 : Run W, Extends (Event.fromLoop flags (iface :: ifs)) r r1 →
        Extends (Event.fromLoop flags (iface :: ifs)) r (Netboot.loop C flags ifs r1).2 :=
      fun r1 h1 => h1.trans ((ih r1).mono (fromLoop_mono flags iface ifs))
    by_cases hname : iface.Name = "eth0".toList
    · have hmem : iface ∈ iface :: ifs := List.mem_cons_self _ _
      have x1 := extends_attemptDHCPLease C iface leaseTimeout 5 r
        (Event.fromLoop flags (iface :: ifs)) hname ⟨hmem, hname⟩ trivial
      rw [Netboot.loop]
      simp only [hname, ne_eq, not_true_eq_false, if_false]
      rcases q1 : attemptDHCPLease C iface leaseTimeout 5 r with ⟨res1, r1⟩
      rw [q1] at x1
      cases res1 with
      | error e => exact later r1 x1
      | ok packet =>
        simp only
        have x2 := x1.trans (extends_call (Event.fromLoop flags (iface :: ifs))
          (Event.Configure4 iface) (C.Configure4 iface packet.P) r1 ⟨hmem, hname⟩)
        rcases q2 : call (Event.Configure4 iface) (C.Configure4 iface packet.P) r1
          with ⟨res2, r2⟩
        rw [q2] at x2
        cases res2 with
        | some e => exact later r2 x2
        | none =>
          simp only
          cases q3 : C.Boot packet.P with
          | error e => exact later r2 x2
          | ok uri =>
            simp only
            have x3 := x2.trans (extends_getBootImage C uri iface.HardwareAddr
              (C.LeaseIP packet.P) r2 (Event.fromLoop flags (iface :: ifs))
              ⟨iface, hmem, hname, rfl⟩ trivial (fun _ => trivial)
              (fun _ => ⟨iface, hmem, hname, rfl⟩))
            rcases q4 : getBootImage C uri iface.HardwareAddr (C.LeaseIP packet.P) r2
              with ⟨⟨img, gerr⟩, r3⟩
            rw [q4] at x3
            cases gerr with
            | some e => cases img <;> exact x3
            | none =>
              cases img with
              | none => exact x3
              | some im =>
                simp only
                have x4 := x3.trans (extends_dispatch C flags (merged C.Flag flags im) r3
                  (Event.fromLoop flags (iface :: ifs)) (fun h => h) (fun h => h))
                have hd := later _ x4
                unfold dispatch merged at hd
                by_cases hdry : flags.dryRun = true
                · simp only [hdry, if_true] at hd ⊢
                  exact hd
                · simp only [hdry, Bool.false_eq_true, if_false] at hd ⊢
                  exact hd
    · rw [Netboot.loop]
      simp only [hname, ne_eq, not_false_eq_true, if_true]
      exact later r (Extends.refl _ r)

/-- The loop of `Netboot` passes over the interfaces that are not named
`eth0`: it runs as it does on the list without them. -/
theorem loop_filter_eth0 {W Client Pkt : Type} (C : Collaborators W Client Pkt)
    (flags : Flags) (ifs : List Link) :
    ∀ r : Run W, Netboot.loop C flags ifs r
      = Netboot.loop C flags (ifs.filter (fun i => decide (i.Name = "eth0".toList))) r := by
  induction ifs with
  | nil => intro r; rfl
  | cons iface ifs ih =>
    intro r
    by_cases hname : iface.Name = "eth0".toList
    · rw [List.filter_cons_of_pos (by simpa using hname)]
      rw [Netboot.loop, Netboot.loop]
      simp only [ih]
    · rw [List.filter_cons_of_neg (by simpa using hname)]
      rw [Netboot.loop]
      simp only [hname, ne_eq, not_false_eq_true, if_true]
      exact ih r

theorem Netboot_of_LinkList_ok {W Client Pkt : Type} (C : Collaborators W Client Pkt)
    (flags : Flags) (w w1 : W) (ifs : List Link) (h : C.LinkList w = (Except.ok ifs, w1)) :
    Netboot C flags w = Netboot.loop C flags ifs ⟨w1, [Event.LinkList]⟩ := by
  unfold Netboot
  simp only [call, h, List.nil_append]

theorem Netboot_of_LinkList_error {W Client Pkt : Type} (C : Collaborators W Client Pkt)
    (flags : Flags) (w w1 : W) (e : Error) (h : C.LinkList w = (Except.error e, w1)) :
    Netboot C flags w = (Outcome.returned (some e), ⟨w1, [Event.LinkList]⟩) := by
  unfold Netboot
  simp only [call, h, List.nil_append]

/-- The calls of a run of `Netboot`: `LinkList` first, then calls of the
loop over the enumerated interfaces. -/
theorem Netboot_trace {W Client Pkt : Type} (C : Collaborators W Client Pkt)
    (flags : Flags) (w : W) :
    ∃ evs : List Event, (Netboot C flags w).2.trace = Event.LinkList :: evs ∧
      ∀ ev ∈ evs, ∃ ifs, (C.LinkList w).1 = Except.ok ifs ∧ Event.fromLoop flags ifs ev := by
  rcases q : C.LinkList w with ⟨res, w1⟩
  cases res with
  | error e =>
    rw [Netboot_of_LinkList_error C flags w w1 e q]
    exact ⟨[], rfl, by simp⟩
  | ok ifs =>
    rw [Netboot_of_LinkList_ok C flags w w1 ifs q]
    obtain ⟨evs, ht, hp⟩ := loop_extends C flags ifs ⟨w1, [Event.LinkList]⟩
    exact ⟨evs, by rw [ht]; rfl, fun ev hev => ⟨ifs, rfl, hp ev hev⟩⟩

end pxeboot

/-! ## Properties of the resolver, the dispatch and the two filters -/

/-- C11: on failure of the ipxe probe `getBootImage` builds the fallback
location once: scheme and host of the input location, path `path.Dir` of the
input path.  It calls `pxe.NewConfig` and then `FindConfigFile` on that
location, once each, with the hardware address and the assigned address it
was given, and returns the wrapped error of the search or the entry
`Entries[DefaultEntry]`.  For the path `/dir/file`, `path.Dir` gives `/dir`. -/
theorem getBootImage_fallback_location {W Client Pkt : Type}
    (C : pxeboot.Collaborators W Client Pkt) (uri : pxeboot.URL) (mac ip : List Nat)
    (r : pxeboot.Run W) (e : pxeboot.Error) (w1 : W) (hDir : C.Dir = path.Dir)
    (h : C.ipxeNewConfig uri r.world = (Except.error e, w1)) :
    (pxeboot.getBootImage C uri mac ip r).2
      = ⟨(C.FindConfigFile ⟨uri.Scheme, uri.Host, path.Dir uri.Path, [], []⟩ mac ip w1).2,
          r.trace ++ [pxeboot.Event.getBootImage uri mac ip, pxeboot.Event.ipxeNewConfig uri,
            pxeboot.Event.pxeNewConfig ⟨uri.Scheme, uri.Host, path.Dir uri.Path, [], []⟩,
            pxeboot.Event.FindConfigFile ⟨uri.Scheme, uri.Host, path.Dir uri.Path, [], []⟩
              mac ip]⟩ ∧
    (∀ err, (C.FindConfigFile ⟨uri.Scheme, uri.Host, path.Dir uri.Path, [], []⟩ mac ip w1).1
        = Except.error err →
      (pxeboot.getBootImage C uri mac ip r).1
        = (none, some ("failed to parse pxelinux config: ".toList ++ err))) ∧
    (∀ pc, (C.FindConfigFile ⟨uri.Scheme, uri.Host, path.Dir uri.Path, [], []⟩ mac ip w1).1
        = Except.ok pc →
      (pxeboot.getBootImage C uri mac ip r).1 = (pc.Entries pc.DefaultEntry, none)) ∧
    path.Dir "/dir/file".toList = "/dir".toList := by
  have hg := pxeboot.getBootImage_of_ipxe_error C uri mac ip r e w1 h
  rw [hDir] at hg
  refine ⟨by rw [hg], ?_, ?_, by decide⟩
  · intro err herr
    rw [hg, herr]
  · intro pc hpc
    rw [hg, hpc]

/-- C11, in the sample environment whose ipxe probe fails, for the location
`tftp://10.0.0.1/boot/pxelinux.0`: the two pxe calls are made on
`tftp://10.0.0.1/boot`. -/
theorem getBootImage_fallback_location_witness :
    (pxeboot.sampleEnv [pxeboot.eth0] true false true).Dir = path.Dir ∧
    (pxeboot.sampleEnv [pxeboot.eth0] true false true).ipxeNewConfig pxeboot.sampleUri 0
      = (Except.error "not an ipxe script".toList, 1) ∧
    (pxeboot.getBootImage (pxeboot.sampleEnv [pxeboot.eth0] true false true) pxeboot.sampleUri
        [0, 1, 2, 3, 4, 5] [10, 0, 0, 2] ⟨0, []⟩).2
      = ⟨2, [pxeboot.Event.getBootImage pxeboot.sampleUri [0, 1, 2, 3, 4, 5] [10, 0, 0, 2],
          pxeboot.Event.ipxeNewConfig pxeboot.sampleUri,
          pxeboot.Event.pxeNewConfig pxeboot.sampleDir,
          pxeboot.Event.FindConfigFile pxeboot.sampleDir [0, 1, 2, 3, 4, 5] [10, 0, 0, 2]]⟩ :=
  ⟨rfl, rfl,
    (getBootImage_fallback_location (pxeboot.sampleEnv [pxeboot.eth0] true false true)
      pxeboot.sampleUri [0, 1, 2, 3, 4, 5] [10, 0, 0, 2] ⟨0, []⟩ "not an ipxe script".toList 1
      rfl rfl).1.trans (by decide)⟩

/-- The dispatch after a pxe search whose default entry exists: with the lease
obtained and applied, the ipxe probe failing and the pxe search succeeding
with a configuration whose `Entries[DefaultEntry]` is the image `img`, the
loop iteration hands to dispatch (`Execute`, or `ExecutionInfo` in a dry run)
that image with its command line replaced by `updateBootCmdline` of it,
kernel and initrd as they were, and goes on to the next interface. -/
theorem Netboot_dispatches_pxe_default_entry {W Client Pkt : Type}
    (C : pxeboot.Collaborators W Client Pkt) (flags : pxeboot.Flags) (iface : pxeboot.Link)
    (ifs : List pxeboot.Link) (r r1 r2 : pxeboot.Run W) (packet : pxeboot.Packet4 Pkt)
    (uri : pxeboot.URL) (e : pxeboot.Error) (w3 w4 : W) (pc : pxeboot.PxeConfig)
    (img : pxeboot.LinuxImage)
    (hname : iface.Name = "eth0".toList)
    (hlease : pxeboot.attemptDHCPLease C iface pxeboot.leaseTimeout 5 r = (Except.ok packet, r1))
    (hconf : pxeboot.call (pxeboot.Event.Configure4 iface) (C.Configure4 iface packet.P) r1
      = (none, r2))
    (hboot : C.Boot packet.P = Except.ok uri)
    (hipxe : C.ipxeNewConfig uri r2.world = (Except.error e, w3))
    (hpxe : C.FindConfigFile ⟨uri.Scheme, uri.Host, C.Dir uri.Path, [], []⟩ iface.HardwareAddr
      (C.LeaseIP packet.P) w3 = (Except.ok pc, w4))
    (hentry : pc.Entries pc.DefaultEntry = some img) :
    pxeboot.Netboot.loop C flags (iface :: ifs) r
      = pxeboot.Netboot.loop C flags ifs
          (pxeboot.dispatch C flags
            { Kernel := img.Kernel, Initrd := img.Initrd,
              Cmdline := pxeboot.updateBootCmdline C.Flag flags img.Cmdline }
            ⟨w4, r2.trace ++ [pxeboot.Event.getBootImage uri iface.HardwareAddr
                (C.LeaseIP packet.P), pxeboot.Event.ipxeNewConfig uri,
              pxeboot.Event.pxeNewConfig ⟨uri.Scheme, uri.Host, C.Dir uri.Path, [], []⟩,
              pxeboot.Event.FindConfigFile ⟨uri.Scheme, uri.Host, C.Dir uri.Path, [], []⟩
                iface.HardwareAddr (C.LeaseIP packet.P)]⟩) := by
  have hg := pxeboot.getBootImage_of_ipxe_error C uri iface.HardwareAddr (C.LeaseIP packet.P)
    r2 e w3 hipxe
  rw [hpxe] at hg
  simp only [hentry] at hg
  exact pxeboot.loop_of_resolve_success C flags iface ifs r r1 r2 _ packet uri img hname hlease
    hconf hboot hg

/-- The dispatch after a pxe search, in the sample environment (ipxe probe
fails, pxe search succeeds, the default entry exists): the one call of
`Execute` is on the sample image with the merged command line
`root=/dev/sda1 console=ttyS0`. -/
theorem Netboot_dispatches_pxe_default_entry_witness :
    pxeboot.eth0.Name = "eth0".toList ∧
    (pxeboot.sampleEnv [pxeboot.eth0] true false true).ipxeNewConfig pxeboot.sampleUri 4
      = (Except.error "not an ipxe script".toList, 5) ∧
    (pxeboot.Netboot.loop (pxeboot.sampleEnv [pxeboot.eth0] true false true)
        pxeboot.defaultFlags [pxeboot.eth0] ⟨0, []⟩).2.trace.getLast?
      = some (pxeboot.Event.Execute
          { Kernel := 1, Initrd := 2, Cmdline := "root=/dev/sda1 console=ttyS0".toList }) :=
  ⟨rfl, rfl, by
    rw [Netboot_dispatches_pxe_default_entry (pxeboot.sampleEnv [pxeboot.eth0] true false true)
      pxeboot.defaultFlags pxeboot.eth0 [] ⟨0, []⟩
      ⟨3, [pxeboot.Event.IfUp "eth0".toList, pxeboot.Event.New pxeboot.eth0,
        pxeboot.Event.Request]⟩
      ⟨4, [pxeboot.Event.IfUp "eth0".toList, pxeboot.Event.New pxeboot.eth0,
        pxeboot.Event.Request, pxeboot.Event.Configure4 pxeboot.eth0]⟩
      ⟨()⟩ pxeboot.sampleUri "not an ipxe script".toList 5 6
      { Entries := fun label =>
          if label = "linux".toList then some pxeboot.sampleImage else none,
        DefaultEntry := "linux".toList }
      pxeboot.sampleImage rfl rfl rfl rfl rfl rfl rfl]
    decide⟩

/-- C12, evaluated at the failing input: in the sample environment the lease
is obtained and applied, the ipxe probe fails and the pxe search succeeds,
with a configuration whose `DefaultEntry` names no key of `Entries`.
`Netboot` then panics at `img.Cmdline`; the calls of the run end with
`FindConfigFile`, so no image is handed to `Execute` or `ExecutionInfo`. -/
theorem Netboot_pxe_success_without_dispatch :
    (pxeboot.attemptDHCPLease (pxeboot.sampleEnvNoEntry [pxeboot.eth0]) pxeboot.eth0
        pxeboot.leaseTimeout 5 ⟨1, [pxeboot.Event.LinkList]⟩).1.toOption.isSome = true ∧
    ((pxeboot.sampleEnvNoEntry [pxeboot.eth0]).Configure4 pxeboot.eth0 () 4).1 = none ∧
    ((pxeboot.sampleEnvNoEntry [pxeboot.eth0]).ipxeNewConfig pxeboot.sampleUri 5).1.toOption.isNone
      = true ∧
    (((pxeboot.sampleEnvNoEntry [pxeboot.eth0]).FindConfigFile pxeboot.sampleDir
        [0, 1, 2, 3, 4, 5] [10, 0, 0, 2] 6).1.toOption.map
          (fun pc => pc.Entries pc.DefaultEntry)) = some none ∧
    pxeboot.Netboot (pxeboot.sampleEnvNoEntry [pxeboot.eth0]) pxeboot.defaultFlags 0
      = (pxeboot.Outcome.panicked,
          ⟨7, [pxeboot.Event.LinkList, pxeboot.Event.IfUp "eth0".toList,
            pxeboot.Event.New pxeboot.eth0, pxeboot.Event.Request,
            pxeboot.Event.Configure4 pxeboot.eth0,
            pxeboot.Event.getBootImage pxeboot.sampleUri [0, 1, 2, 3, 4, 5] [10, 0, 0, 2],
            pxeboot.Event.ipxeNewConfig pxeboot.sampleUri,
            pxeboot.Event.pxeNewConfig pxeboot.sampleDir,
            pxeboot.Event.FindConfigFile pxeboot.sampleDir [0, 1, 2, 3, 4, 5]
              [10, 0, 0, 2]]⟩) := by
  refine ⟨rfl, rfl, rfl, rfl, ?_⟩
  decide

/-- C13: with the lease obtained and applied and the ipxe probe succeeding
with the image `img`, the loop iteration hands to dispatch an image with the
kernel and the initrd of `img` and the command line `updateBootCmdline` of
the command line of `img`, and goes on to the next interface. -/
theorem Netboot_dispatches_ipxe_image {W Client Pkt : Type}
    (C : pxeboot.Collaborators W Client Pkt) (flags : pxeboot.Flags) (iface : pxeboot.Link)
    (ifs : List pxeboot.Link) (r r1 r2 : pxeboot.Run W) (packet : pxeboot.Packet4 Pkt)
    (uri : pxeboot.URL) (ipc : pxeboot.IpxeConfig) (w3 : W) (img : pxeboot.LinuxImage)
    (hname : iface.Name = "eth0".toList)
    (hlease : pxeboot.attemptDHCPLease C iface pxeboot.leaseTimeout 5 r = (Except.ok packet, r1))
    (hconf : pxeboot.call (pxeboot.Event.Configure4 iface) (C.Configure4 iface packet.P) r1
      = (none, r2))
    (hboot : C.Boot packet.P = Except.ok uri)
    (hipxe : C.ipxeNewConfig uri r2.world = (Except.ok ipc, w3))
    (himg : ipc.BootImage = some img) :
    pxeboot.Netboot.loop C flags (iface :: ifs) r
      = pxeboot.Netboot.loop C flags ifs
          (pxeboot.dispatch C flags
            { Kernel := img.Kernel, Initrd := img.Initrd,
              Cmdline := pxeboot.updateBootCmdline C.Flag flags img.Cmdline }
            ⟨w3, r2.trace ++ [pxeboot.Event.getBootImage uri iface.HardwareAddr
                (C.LeaseIP packet.P), pxeboot.Event.ipxeNewConfig uri]⟩) := by
  have hg := pxeboot.getBootImage_of_ipxe_ok C uri iface.HardwareAddr (C.LeaseIP packet.P)
    r2 ipc w3 hipxe
  rw [himg] at hg
  exact pxeboot.loop_of_resolve_success C flags iface ifs r r1 r2 _ packet uri img hname hlease
    hconf hboot hg

/-- C13, in the sample environment whose ipxe probe succeeds: the one call of
`Execute` is on the sample image with the merged command line. -/
theorem Netboot_dispatches_ipxe_image_witness :
    pxeboot.eth0.Name = "eth0".toList ∧
    (pxeboot.sampleEnv [pxeboot.eth0] true true true).ipxeNewConfig pxeboot.sampleUri 4
      = (Except.ok ⟨some pxeboot.sampleImage⟩, 5) ∧
    (pxeboot.Netboot.loop (pxeboot.sampleEnv [pxeboot.eth0] true true true)
        pxeboot.defaultFlags [pxeboot.eth0] ⟨0, []⟩).2.trace.getLast?
      = some (pxeboot.Event.Execute
          { Kernel := 1, Initrd := 2, Cmdline := "root=/dev/sda1 console=ttyS0".toList }) :=
  ⟨rfl, rfl, by
    rw [Netboot_dispatches_ipxe_image (pxeboot.sampleEnv [pxeboot.eth0] true true true)
      pxeboot.defaultFlags pxeboot.eth0 [] ⟨0, []⟩
      ⟨3, [pxeboot.Event.IfUp "eth0".toList, pxeboot.Event.New pxeboot.eth0,
        pxeboot.Event.Request]⟩
      ⟨4, [pxeboot.Event.IfUp "eth0".toList, pxeboot.Event.New pxeboot.eth0,
        pxeboot.Event.Request, pxeboot.Event.Configure4 pxeboot.eth0]⟩
      ⟨()⟩ pxeboot.sampleUri ⟨some pxeboot.sampleImage⟩ 5 pxeboot.sampleImage
      rfl rfl rfl rfl rfl rfl]
    decide⟩

/-- C14: in a dry run `Execute` is never called, and outside a dry run
`ExecutionInfo` is never called, whatever the interfaces and the
collaborators do.  In a loop iteration whose resolve returns an image, the
image with the merged command line goes to `ExecutionInfo` when the flag is
set and to `Execute` when it is not; that call stays in the trace of the
run. -/
theorem Netboot_dry_run_dispatch {W Client Pkt : Type}
    (C : pxeboot.Collaborators W Client Pkt) (flags : pxeboot.Flags) :
    (∀ w : W, flags.dryRun = true →
      ∀ img, pxeboot.Event.Execute img ∉ (pxeboot.Netboot C flags w).2.trace) ∧
    (∀ w : W, flags.dryRun = false →
      ∀ img, pxeboot.Event.ExecutionInfo img ∉ (pxeboot.Netboot C flags w).2.trace) ∧
    (∀ (iface : pxeboot.Link) (ifs : List pxeboot.Link) (r r1 r2 r3 : pxeboot.Run W)
        (packet : pxeboot.Packet4 Pkt) (uri : pxeboot.URL) (img : pxeboot.LinuxImage),
      iface.Name = "eth0".toList →
      pxeboot.attemptDHCPLease C iface pxeboot.leaseTimeout 5 r = (Except.ok packet, r1) →
      pxeboot.call (pxeboot.Event.Configure4 iface) (C.Configure4 iface packet.P) r1
        = (none, r2) →
      C.Boot packet.P = Except.ok uri →
      pxeboot.getBootImage C uri iface.HardwareAddr (C.LeaseIP packet.P) r2
        = ((some img, none), r3) →
      pxeboot.Netboot.loop C flags (iface :: ifs) r
        = pxeboot.Netboot.loop C flags ifs
            (if flags.dryRun then
              ⟨C.ExecutionInfo (pxeboot.merged C.Flag flags img) r3.world,
                r3.trace ++ [pxeboot.Event.ExecutionInfo (pxeboot.merged C.Flag flags img)]⟩
            else
              ⟨(C.Execute (pxeboot.merged C.Flag flags img) r3.world).2,
                r3.trace ++ [pxeboot.Event.Execute (pxeboot.merged C.Flag flags img)]⟩) ∧
      (if flags.dryRun then pxeboot.Event.ExecutionInfo (pxeboot.merged C.Flag flags img)
        else pxeboot.Event.Execute (pxeboot.merged C.Flag flags img))
        ∈ (pxeboot.Netboot.loop C flags (iface :: ifs) r).2.trace) := by
  refine ⟨?_, ?_, ?_⟩
  · intro w hdry img hmem
    obtain ⟨evs, ht, hp⟩ := pxeboot.Netboot_trace C flags w
    rw [ht] at hmem
    rcases List.mem_cons.1 hmem with h | h
    · cases h
    · obtain ⟨ifs, _, hfrom⟩ := hp _ h
      have hfalse : flags.dryRun = false := hfrom
      rw [hdry] at hfalse
      cases hfalse
  · intro w hdry img hmem
    obtain ⟨evs, ht, hp⟩ := pxeboot.Netboot_trace C flags w
    rw [ht] at hmem
    rcases List.mem_cons.1 hmem with h | h
    · cases h
    · obtain ⟨ifs, _, hfrom⟩ := hp _ h
      have htrue : flags.dryRun = true := hfrom
      rw [hdry] at htrue
      cases htrue
  · intro iface ifs r r1 r2 r3 packet uri img hname hlease hconf hboot hget
    have hstep := pxeboot.loop_of_resolve_success C flags iface ifs r r1 r2 r3 packet uri img
      hname hlease hconf hboot hget
    have hd : pxeboot.dispatch C flags (pxeboot.merged C.Flag flags img) r3
        = (if flags.dryRun then
            ⟨C.ExecutionInfo (pxeboot.merged C.Flag flags img) r3.world,
              r3.trace ++ [pxeboot.Event.ExecutionInfo (pxeboot.merged C.Flag flags img)]⟩
          else
            ⟨(C.Execute (pxeboot.merged C.Flag flags img) r3.world).2,
              r3.trace ++ [pxeboot.Event.Execute (pxeboot.merged C.Flag flags img)]⟩) := rfl
    rw [hd] at hstep
    refine ⟨hstep, ?_⟩
    rw [hstep]
    obtain ⟨evs, ht, _⟩ := pxeboot.loop_extends C flags ifs
      (if flags.dryRun then
        (⟨C.ExecutionInfo (pxeboot.merged C.Flag flags img) r3.world,
          r3.trace ++ [pxeboot.Event.ExecutionInfo (pxeboot.merged C.Flag flags img)]⟩ :
            pxeboot.Run W)
      else
        ⟨(C.Execute (pxeboot.merged C.Flag flags img) r3.world).2,
          r3.trace ++ [pxeboot.Event.Execute (pxeboot.merged C.Flag flags img)]⟩)
    rw [ht]
    apply List.mem_append_left
    by_cases hdry : flags.dryRun = true
    · simp [hdry]
    · simp [hdry]

/-- C14, in the sample environment with the `dry-run` flag set: the trace of
the run has no call of `Execute`, and its last call is `ExecutionInfo`. -/
theorem Netboot_dry_run_dispatch_witness :
    pxeboot.dryRunFlags.dryRun = true ∧
    (∀ img, pxeboot.Event.Execute img
      ∉ (pxeboot.Netboot (pxeboot.sampleEnv [pxeboot.eth0] true true true)
          pxeboot.dryRunFlags 0).2.trace) ∧
    (pxeboot.Netboot (pxeboot.sampleEnv [pxeboot.eth0] true true true)
        pxeboot.dryRunFlags 0).2.trace.getLast?
      = some (pxeboot.Event.ExecutionInfo
          { Kernel := 1, Initrd := 2, Cmdline := "root=/dev/sda1 console=ttyS0".toList }) :=
  ⟨rfl,
    (Netboot_dry_run_dispatch (pxeboot.sampleEnv [pxeboot.eth0] true true true)
      pxeboot.dryRunFlags).1 0 rfl,
    by decide⟩

/-- C15: only interfaces named `eth0` are attempted.  After a successful
enumeration the run is the run of the loop over the interfaces named `eth0`
alone; every `IfUp`, `New` and `Configure4` call is for an interface of that
name and every resolve is for the hardware address of one; and when no
interface has the name, `Netboot` returns nil having called `LinkList`
only. -/
theorem Netboot_only_eth0 {W Client Pkt : Type} (C : pxeboot.Collaborators W Client Pkt)
    (flags : pxeboot.Flags) (w w1 : W) (ifs : List pxeboot.Link)
    (henum : C.LinkList w = (Except.ok ifs, w1)) :
    pxeboot.Netboot C flags w
      = pxeboot.Netboot.loop C flags (ifs.filter (fun i => decide (i.Name = "eth0".toList)))
          ⟨w1, [pxeboot.Event.LinkList]⟩ ∧
    ((∀ i ∈ ifs, i.Name ≠ "eth0".toList) →
      pxeboot.Netboot C flags w
        = (pxeboot.Outcome.returned none, ⟨w1, [pxeboot.Event.LinkList]⟩)) ∧
    (∀ ev ∈ (pxeboot.Netboot C flags w).2.trace,
      (∀ name, ev = pxeboot.Event.IfUp name → name = "eth0".toList) ∧
      (∀ i, ev = pxeboot.Event.New i → i ∈ ifs ∧ i.Name = "eth0".toList) ∧
      (∀ i, ev = pxeboot.Event.Configure4 i → i ∈ ifs ∧ i.Name = "eth0".toList) ∧
      (∀ uri mac ip, ev = pxeboot.Event.getBootImage uri mac ip →
        ∃ i ∈ ifs, i.Name = "eth0".toList ∧ mac = i.HardwareAddr)) := by
  have hN := pxeboot.Netboot_of_LinkList_ok C flags w w1 ifs henum
  refine ⟨by rw [hN]; exact pxeboot.loop_filter_eth0 C flags ifs _, ?_, ?_⟩
  · intro hnone
    rw [hN, pxeboot.loop_filter_eth0]
    have hf : ifs.filter (fun i => decide (i.Name = "eth0".toList)) = [] := by
      rw [List.filter_eq_nil_iff]
      intro i hi
      simpa using hnone i hi
    rw [hf]
    rfl
  · intro ev hev
    rw [hN] at hev
    obtain ⟨evs, ht, hp⟩ := pxeboot.loop_extends C flags ifs ⟨w1, [pxeboot.Event.LinkList]⟩
    rw [ht] at hev
    rcases List.mem_append.1 hev with h | h
    · simp only [List.mem_singleton] at h
      subst h
      refine ⟨?_, ?_, ?_, ?_⟩ <;> intros <;> contradiction
    · have hfrom := hp ev h
      refine ⟨?_, ?_, ?_, ?_⟩
      · intro name he
        subst he
        exact hfrom
      · intro i he
        subst he
        exact hfrom
      · intro i he
        subst he
        exact hfrom
      · intro uri mac ip he
        subst he
        exact hfrom

/-- C15, in the sample environment with the interfaces `eth1` and `eth1`
again: `Netboot` returns nil after the call of `LinkList` alone. -/
theorem Netboot_only_eth0_witness :
    (pxeboot.sampleEnv [pxeboot.eth1, pxeboot.eth1] true true true).LinkList 0
      = (Except.ok [pxeboot.eth1, pxeboot.eth1], 1) ∧
    (∀ i ∈ [pxeboot.eth1, pxeboot.eth1], i.Name ≠ "eth0".toList) ∧
    pxeboot.Netboot (pxeboot.sampleEnv [pxeboot.eth1, pxeboot.eth1] true true true)
        pxeboot.defaultFlags 0
      = (pxeboot.Outcome.returned none, ⟨1, [pxeboot.Event.LinkList]⟩) :=
  ⟨rfl, by decide,
    (Netboot_only_eth0 (pxeboot.sampleEnv [pxeboot.eth1, pxeboot.eth1] true true true)
      pxeboot.defaultFlags 0 1 [pxeboot.eth1, pxeboot.eth1] rfl).2.1 (by decide)⟩

/-- C16: an unterminated quote swallows the rest of the line.  When no quote
is open after the prefix `p`, `q` is a quotation mark and the remainder `r`
has no `q`, the last span of the tokenizer on the line `p q r` starts at or
before `q` and ends at the end of the line, the last token is the piece of
`p` from that start on followed by `q r`, and `Remove` with an empty removal
list returns a line that ends with `q r`. -/
theorem unterminated_quote_last_token (p r : List Char) (q : Char)
    (hp : strings.stateAfter cmdlinefilter.quotedFieldsCheck (Char.ofNat 0) p = Char.ofNat 0)
    (hq : unicode.In q unicode.Quotation_Mark = true) (hr : q ∉ r) :
    ∃ (a : Nat) (before : List strings.Span), a ≤ p.length ∧
      strings.FieldsFunc.spans (p ++ q :: r) cmdlinefilter.quotedFieldsCheck (Char.ofNat 0)
        = before ++ [strings.Span.mk a (p ++ q :: r).length] ∧
      cmdlinefilter.tokens (p ++ q :: r)
        = before.map (fun sp => strings.slice (p ++ q :: r) sp.start sp.stop)
            ++ [p.drop a ++ q :: r] ∧
      (q :: r) <:+ cmdlinefilter.Remove (p ++ q :: r) [] := by
  have h0 := cmdlinefilter.quote_ne_zero q hq
  have hns : strings.noSplit cmdlinefilter.quotedFieldsCheck
      (strings.stateAfter cmdlinefilter.quotedFieldsCheck (Char.ofNat 0) p) (q :: r) = true := by
    rw [hp]
    simp only [strings.noSplit, cmdlinefilter.quotedFieldsCheck_open q hq, Bool.not_false,
      Bool.true_and]
    exact (cmdlinefilter.inside_quote q h0 r hr).1
  obtain ⟨a, before, ha, hsp, htok⟩ := cmdlinefilter.tokens_getLast p (q :: r) (by simp) hns
  refine ⟨a, before, ha, hsp, htok, ?_⟩
  rw [cmdlinefilter.Remove_eq_filter]
  have hall : (cmdlinefilter.tokens (p ++ q :: r)).filter
      (fun t => decide (cmdlinefilter.canonical (cmdlinefilter.specKey t) ∉ []))
      = cmdlinefilter.tokens (p ++ q :: r) := by
    rw [List.filter_eq_self]
    intro t _
    simp
  rw [hall, htok]
  exact (List.suffix_append (p.drop a) (q :: r)).trans (strings.Join_append_singleton _ _ _)

/-- C16, at the line `a "b c`: prefix `a `, quote `"`, remainder `b c`. -/
theorem unterminated_quote_last_token_witness :
    strings.stateAfter cmdlinefilter.quotedFieldsCheck (Char.ofNat 0) "a ".toList
        = Char.ofNat 0 ∧
    unicode.In (Char.ofNat 34) unicode.Quotation_Mark = true ∧
    Char.ofNat 34 ∉ "b c".toList ∧
    (Char.ofNat 34 :: "b c".toList)
      <:+ cmdlinefilter.Remove ("a ".toList ++ Char.ofNat 34 :: "b c".toList) [] :=
  ⟨by decide, by decide, by decide,
    let ⟨_, _, _, _, _, h⟩ :=
      unterminated_quote_last_token "a ".toList "b c".toList (Char.ofNat 34)
        (by decide) (by decide) (by decide)
    h⟩

/-- C17: an execution failure does not fail the run.  In a loop iteration
outside a dry run whose resolve returns an image and whose `Execute` returns
an error, the loop goes on with the remaining interfaces in the state
`Execute` left; with none remaining `Netboot` returns nil; and an error the
loop then returns is one `getBootImage` returned for a remaining interface. -/
theorem Netboot_execute_failure_continues {W Client Pkt : Type}
    (C : pxeboot.Collaborators W Client Pkt) (flags : pxeboot.Flags) (iface : pxeboot.Link)
    (ifs : List pxeboot.Link) (r r1 r2 r3 : pxeboot.Run W) (packet : pxeboot.Packet4 Pkt)
    (uri : pxeboot.URL) (img : pxeboot.LinuxImage) (err : pxeboot.Error) (w4 : W)
    (hname : iface.Name = "eth0".toList)
    (hlease : pxeboot.attemptDHCPLease C iface pxeboot.leaseTimeout 5 r = (Except.ok packet, r1))
    (hconf : pxeboot.call (pxeboot.Event.Configure4 iface) (C.Configure4 iface packet.P) r1
      = (none, r2))
    (hboot : C.Boot packet.P = Except.ok uri)
    (hget : pxeboot.getBootImage C uri iface.HardwareAddr (C.LeaseIP packet.P) r2
      = ((some img, none), r3))
    (hdry : flags.dryRun = false)
    (hexec : C.Execute (pxeboot.merged C.Flag flags img) r3.world = (some err, w4)) :
    pxeboot.Netboot.loop C flags (iface :: ifs) r
      = pxeboot.Netboot.loop C flags ifs
          ⟨w4, r3.trace ++ [pxeboot.Event.Execute (pxeboot.merged C.Flag flags img)]⟩ ∧
    pxeboot.Netboot.loop C flags [iface] r
      = (pxeboot.Outcome.returned none,
          ⟨w4, r3.trace ++ [pxeboot.Event.Execute (pxeboot.merged C.Flag flags img)]⟩) ∧
    (∀ err1, (pxeboot.Netboot.loop C flags (iface :: ifs) r).1
        = pxeboot.Outcome.returned (some err1) →
      ∃ i ∈ ifs, i.Name = "eth0".toList ∧
        ∃ (packet1 : pxeboot.Packet4 Pkt) (uri1 : pxeboot.URL) (r5 r6 : pxeboot.Run W)
          (img1 : Option pxeboot.LinuxImage),
          C.Boot packet1.P = Except.ok uri1 ∧
          pxeboot.getBootImage C uri1 i.HardwareAddr (C.LeaseIP packet1.P) r5
            = ((img1, some err1), r6)) := by
  have hd : ∀ l : List pxeboot.Link, pxeboot.Netboot.loop C flags (iface :: l) r
      = pxeboot.Netboot.loop C flags l
          ⟨w4, r3.trace ++ [pxeboot.Event.Execute (pxeboot.merged C.Flag flags img)]⟩ := by
    intro l
    rw [pxeboot.loop_of_resolve_success C flags iface l r r1 r2 r3 packet uri img hname hlease
      hconf hboot hget]
    unfold pxeboot.dispatch
    simp only [hdry, Bool.false_eq_true, if_false, hexec]
  refine ⟨hd ifs, ?_, ?_⟩
  · rw [hd []]
    rfl
  · intro err1 h1
    rw [hd ifs] at h1
    obtain ⟨i, hi, hn, packet1, uri1, r5, r6, img1, hb, hg, _⟩ :=
      pxeboot.loop_error_from_getBootImage C flags err1 ifs _ _ rfl h1
    exact ⟨i, hi, hn, packet1, uri1, r5, r6, img1, hb, hg⟩

/-- C17, in the sample environment, whose `Execute` fails with `kexec failed`:
the run over the one interface `eth0` returns nil. -/
theorem Netboot_execute_failure_continues_witness :
    pxeboot.defaultFlags.dryRun = false ∧
    (pxeboot.sampleEnv [pxeboot.eth0] true true true).Execute
        (pxeboot.merged (pxeboot.sampleEnv [pxeboot.eth0] true true true).Flag
          pxeboot.defaultFlags pxeboot.sampleImage) 5
      = (some "kexec failed".toList, 6) ∧
    (pxeboot.Netboot.loop (pxeboot.sampleEnv [pxeboot.eth0] true true true)
        pxeboot.defaultFlags [pxeboot.eth0] ⟨0, []⟩).1 = pxeboot.Outcome.returned none :=
  ⟨rfl, rfl, by
    rw [(Netboot_execute_failure_continues (pxeboot.sampleEnv [pxeboot.eth0] true true true)
      pxeboot.defaultFlags pxeboot.eth0 [] ⟨0, []⟩
      ⟨3, [pxeboot.Event.IfUp "eth0".toList, pxeboot.Event.New pxeboot.eth0,
        pxeboot.Event.Request]⟩
      ⟨4, [pxeboot.Event.IfUp "eth0".toList, pxeboot.Event.New pxeboot.eth0,
        pxeboot.Event.Request, pxeboot.Event.Configure4 pxeboot.eth0]⟩
      ⟨5, [pxeboot.Event.IfUp "eth0".toList, pxeboot.Event.New pxeboot.eth0,
        pxeboot.Event.Request, pxeboot.Event.Configure4 pxeboot.eth0,
        pxeboot.Event.getBootImage pxeboot.sampleUri [0, 1, 2, 3, 4, 5] [10, 0, 0, 2],
        pxeboot.Event.ipxeNewConfig pxeboot.sampleUri]⟩
      ⟨()⟩ pxeboot.sampleUri pxeboot.sampleImage "kexec failed".toList 6
      rfl rfl rfl rfl rfl rfl rfl).2.1]⟩

/-- C18: the inline and the packaged filter and merge agree.
`removeFromCmdline` returns what `Remove` returns; `updateBootCmdline`
returns what `Update` returns on the append-text and the comma-split remove
and reuse flags, with the same lookup; and both put the append-text before
the reuse tokens. -/
theorem inline_filter_agrees_with_package :
    (∀ (cl : List Char) (fields : List (List Char)),
      pxeboot.removeFromCmdline cl fields = cmdlinefilter.Remove cl fields) ∧
    (∀ (Flag : List Char → List Char × Bool) (flags : pxeboot.Flags) (cl : List Char),
      pxeboot.updateBootCmdline Flag flags cl
        = cmdlinefilter.Update Flag cl flags.appendCmdline
            (strings.Split flags.removeCmdlineItem ',')
            (strings.Split flags.reuseCmdlineItem ',')) ∧
    (∀ (Flag : List Char → List Char × Bool) (flags : pxeboot.Flags) (cl : List Char),
      pxeboot.updateBootCmdline Flag flags cl
        = pxeboot.removeFromCmdline cl (strings.Split flags.removeCmdlineItem ',')
            ++ (if flags.appendCmdline ≠ [] then [' '] ++ flags.appendCmdline else [])
            ++ cmdlinefilter.reuseTokens Flag (strings.Split flags.reuseCmdlineItem ',')) := by
  refine ⟨pxeboot.removeFromCmdline_eq_Remove, pxeboot.updateBootCmdline_eq_Update, ?_⟩
  intro Flag flags cl
  rw [pxeboot.updateBootCmdline_eq_Update, cmdlinefilter.Update_eq,
    pxeboot.removeFromCmdline_eq_Remove]

/-- C19: successive removals compose.  Removing `F` and then `G` gives what
removing `F ++ G` gives, which is what removing `G` and then `F` gives; and
the tokens of the line `Remove` returns are exactly the kept tokens of the
input. -/
theorem Remove_composes (s : List Char) (F G : List (List Char)) :
    cmdlinefilter.Remove (cmdlinefilter.Remove s F) G = cmdlinefilter.Remove s (F ++ G) ∧
    cmdlinefilter.Remove s (F ++ G) = cmdlinefilter.Remove (cmdlinefilter.Remove s G) F ∧
    cmdlinefilter.tokens (cmdlinefilter.Remove s F)
      = (cmdlinefilter.tokens s).filter
          (fun t => decide (cmdlinefilter.canonical (cmdlinefilter.specKey t) ∉ F)) :=
  ⟨cmdlinefilter.Remove_Remove s F G,
    by rw [cmdlinefilter.Remove_Remove s G F]; exact cmdlinefilter.Remove_append_comm s F G,
    cmdlinefilter.tokens_Remove s F⟩

/-- C20, evaluated at the failing input: in the sample environment whose pxe
search succeeds with a configuration whose `DefaultEntry` names no key of
`Entries`, `getBootImage` returns a nil image together with a nil error, and
`Netboot` panics at `img.Cmdline`, without any dispatch. -/
theorem getBootImage_nil_image_nil_error :
    (pxeboot.getBootImage (pxeboot.sampleEnvNoEntry [pxeboot.eth0]) pxeboot.sampleUri
        [0, 1, 2, 3, 4, 5] [10, 0, 0, 2] ⟨0, []⟩).1 = (none, none) ∧
    (pxeboot.Netboot (pxeboot.sampleEnvNoEntry [pxeboot.eth0]) pxeboot.defaultFlags 0).1
      = pxeboot.Outcome.panicked ∧
    (pxeboot.Netboot (pxeboot.sampleEnvNoEntry [pxeboot.eth0]) pxeboot.defaultFlags 0).2.trace.getLast?
      = some (pxeboot.Event.FindConfigFile pxeboot.sampleDir [0, 1, 2, 3, 4, 5] [10, 0, 0, 2]) := by
  decide
